import Mathlib

/-!
Verification development for the cozyvalues-gen repository.

The repository contains several historical variants of its two packages:
* `internal/openapi/openapi.go` (first compilation unit) — namespace `CV.Openapi`
  (dotted-path `@param name {type}` syntax, alias rewriting in `Build`);
* the JSDoc-style `openapi` package (the current one, with `@typedef`/`@enum`
  support, `CollectUndefined` over referenced/defined sets, and the full
  struct emitter) — namespace `CV.OpenapiJS`;
* the `readme` package with `validateValues` — namespace `CV.Readme`;
* the `readme` table generator with `checkKeys` — namespace `CV.ReadmeTable`.

Go strings are modelled as Lean `String`s; Go byte-level operations are
modelled on the `List Char` underlying a `String` (all strings involved are
ASCII).  Go maps are modelled as association lists: lookup returns the first
binding, insertion of a fresh key appends, updates replace in place; the list
order stands in for Go's (unspecified) map iteration order.  External
library functions (YAML marshalling/parsing from sigs.k8s.io/yaml) are taken
as parameters of the definitions that call them.
-/

namespace CV

/-! ### Go string primitives -/

/-- The double-quote character. -/
def quoteCh : Char := Char.ofNat 34

/-- The backslash character. -/
def bslashCh : Char := Char.ofNat 92

/-- The apostrophe character. -/
def aposCh : Char := Char.ofNat 39

/-- Apostrophe as a one-character string (used in Go error messages). -/
def sq : String := ⟨[aposCh]⟩

/-- Models Go `strings.HasPrefix`. -/
def strHasPref (s p : String) : Bool := p.data.isPrefixOf s.data

/-- Models Go `s[n:]` (drop the first `n` bytes). -/
def strDrop (s : String) (n : Nat) : String := ⟨s.data.drop n⟩

/-- Models Go `strings.TrimPrefix`. -/
def strTrimPref (s p : String) : String :=
  if strHasPref s p then strDrop s p.data.length else s

/-- Models Go `strings.TrimSpace`. -/
def strTrim (s : String) : String :=
  ⟨((s.data.dropWhile Char.isWhitespace).reverse.dropWhile Char.isWhitespace).reverse⟩

/-- Models Go `strings.Contains` (substring test). -/
def strContainsSub (s pat : String) : Bool := decide (pat.data <:+: s.data)

/-- Drops characters up to and including the first occurrence of `c`;
`none` when `c` does not occur.  Used to model Go
`strings.Index(s, "]")` followed by slicing `s[i+1:]`. -/
def dropThroughChar (c : Char) : List Char → Option (List Char)
  | [] => none
  | x :: xs => if x = c then some xs else dropThroughChar c xs

/-- The part of `s` after the first `]`, if any. -/
def strAfterRBracket (s : String) : Option String :=
  (dropThroughChar ']' s.data).map (⟨·⟩)

/-- Models Go `strings.Contains(s, "]")`. -/
def strContainsRBracket (s : String) : Bool := (dropThroughChar ']' s.data).isSome

/-- Models the Go `camel` helper of the openapi packages: upper-cases the
first letter and every letter following `_` or `-`, dropping the separators. -/
def camelChars : Bool → List Char → List Char
  | _, [] => []
  | need, ch :: cs =>
    if ch = '_' ∨ ch = '-' then camelChars true cs
    else (if need then ch.toUpper else ch) :: camelChars false cs

/-- Go `camel` on strings. -/
def camel (s : String) : String := ⟨camelChars true s.data⟩

/-- One character of Go `fmt.Sprintf("%q", ·)` output (printable-ASCII model:
escapes the quote, the backslash, newline and tab; other characters in the
strings this code handles are printable ASCII and pass through unchanged). -/
def goQuoteChar (c : Char) : List Char :=
  if c = quoteCh then [bslashCh, quoteCh]
  else if c = bslashCh then [bslashCh, bslashCh]
  else if c = '\n' then [bslashCh, 'n']
  else if c = '\t' then [bslashCh, 't']
  else [c]

/-- Models Go `fmt.Sprintf("%q", s)` for the printable-ASCII strings that
occur as enum members and defaults. -/
def goQuote (s : String) : String :=
  ⟨quoteCh :: (s.data.flatMap goQuoteChar) ++ [quoteCh]⟩

/-- Models Go `strings.Join(l, sep)`. -/
def strJoin (sep : String) : List String → String
  | [] => ""
  | [x] => x
  | x :: xs => x ++ sep ++ strJoin sep xs

/-! ### Sorting (models Go `sort.Strings` / `sort.Slice` by key)

Go compares strings byte-wise; for the ASCII strings this code handles that
is character-wise lexicographic comparison, modelled here directly on the
character lists (the built-in `String` order is not used). -/

/-- Byte-wise lexicographic `≤` on character lists (Go string comparison). -/
def chleb : List Char → List Char → Bool
  | [], _ => true
  | _ :: _, [] => false
  | a :: as, b :: bs =>
    if a.toNat < b.toNat then true
    else if b.toNat < a.toNat then false
    else chleb as bs

/-- Go string `≤`. -/
def strLe (a b : String) : Bool := chleb a.data b.data

/-- Go string `≤` as a relation. -/
def strLeP (a b : String) : Prop := strLe a b = true

instance (a b : String) : Decidable (strLeP a b) := by
  unfold strLeP; infer_instance

theorem chleb_total : ∀ as bs, chleb as bs = true ∨ chleb bs as = true := by
  intro as
  induction as with
  | nil => intro bs; left; rfl
  | cons a as ih =>
    intro bs
    cases bs with
    | nil => right; rfl
    | cons b bs =>
      by_cases h1 : a.toNat < b.toNat
      · left; simp [chleb, h1]
      · by_cases h2 : b.toNat < a.toNat
        · right; simp [chleb, h2]
        · rcases ih bs with h | h
          · left; simp [chleb, h1, h2, h]
          · right; simp [chleb, h1, h2, h]

theorem char_eq_of_toNat_eq {a b : Char} (h : a.toNat = b.toNat) : a = b := by
  have hv : a.val = b.val := by
    apply UInt32.ext
    exact h
  exact Char.eq_of_val_eq hv

theorem chleb_antisymm : ∀ as bs, chleb as bs = true → chleb bs as = true →
    as = bs := by
  intro as
  induction as with
  | nil =>
    intro bs h1 h2
    cases bs with
    | nil => rfl
    | cons b bs => simp [chleb] at h2
  | cons a as ih =>
    intro bs h1 h2
    cases bs with
    | nil => simp [chleb] at h1
    | cons b bs =>
      by_cases hab : a.toNat < b.toNat
      · simp [chleb, hab, Nat.lt_asymm hab, Nat.ne_of_lt hab] at h2
      · by_cases hba : b.toNat < a.toNat
        · simp [chleb, hab, hba] at h1
        · have he : a = b := char_eq_of_toNat_eq (by omega)
          subst he
          simp only [chleb, hab, if_neg, if_false] at h1 h2
          rw [ih bs h1 h2]

theorem chleb_trans : ∀ as bs cs, chleb as bs = true → chleb bs cs = true →
    chleb as cs = true := by
  intro as
  induction as with
  | nil => intro bs cs h1 h2; rfl
  | cons a as ih =>
    intro bs cs h1 h2
    cases bs with
    | nil => simp [chleb] at h1
    | cons b bs =>
      cases cs with
      | nil => simp [chleb] at h2
      | cons c cs =>
        by_cases hab : a.toNat < b.toNat <;> by_cases hbc : b.toNat < c.toNat
        · simp [chleb]; omega
        · by_cases hcb : c.toNat < b.toNat
          · simp [chleb, hbc, hcb] at h2
          · have : b = c := char_eq_of_toNat_eq (by omega)
            subst this
            simp [chleb, hab]
        · by_cases hba : b.toNat < a.toNat
          · simp [chleb, hab, hba] at h1
          · have : a = b := char_eq_of_toNat_eq (by omega)
            subst this
            simp [chleb, hbc]
        · by_cases hba : b.toNat < a.toNat
          · simp [chleb, hab, hba] at h1
          · have hab2 : a = b := char_eq_of_toNat_eq (by omega)
            by_cases hcb : c.toNat < b.toNat
            · simp [chleb, hbc, hcb] at h2
            · have hbc2 : b = c := char_eq_of_toNat_eq (by omega)
              subst hab2
              subst hbc2
              simp only [chleb, hab, if_neg, if_false] at h1 h2 ⊢
              exact ih bs cs h1 h2

theorem strLe_total (a b : String) : strLe a b = true ∨ strLe b a = true :=
  chleb_total a.data b.data

theorem strLe_trans {a b c : String} (h1 : strLe a b = true)
    (h2 : strLe b c = true) : strLe a c = true :=
  chleb_trans a.data b.data c.data h1 h2

theorem strLe_antisymm {a b : String} (h1 : strLe a b = true)
    (h2 : strLe b a = true) : a = b := by
  cases a with
  | mk da =>
    cases b with
    | mk db =>
      have := chleb_antisymm da db h1 h2
      rw [this]

instance : IsAntisymm String strLeP :=
  ⟨fun _ _ h1 h2 => strLe_antisymm h1 h2⟩

instance : IsTrans String strLeP :=
  ⟨fun _ _ _ h1 h2 => strLe_trans h1 h2⟩

/-- Insert a string into a (sorted) list of strings. -/
def insortStr (x : String) : List String → List String
  | [] => [x]
  | y :: ys => if strLe x y then x :: y :: ys else y :: insortStr x ys

/-- Insertion sort on strings; models Go `sort.Strings` (byte order). -/
def sortStrs (l : List String) : List String := l.foldr insortStr []

/-- Insert into a list of key–value pairs, ordered by string key. -/
def insortByKey {α : Type} (x : String × α) : List (String × α) → List (String × α)
  | [] => [x]
  | y :: ys => if strLe x.1 y.1 then x :: y :: ys else y :: insortByKey x ys

/-- Sort a list of key–value pairs by string key; models Go's
"collect map keys, `sort.Strings`, then index the map" iteration pattern. -/
def sortByKey {α : Type} (l : List (String × α)) : List (String × α) :=
  l.foldr insortByKey []

theorem insortStr_perm (x : String) (l : List String) :
    List.Perm (insortStr x l) (x :: l) := by
  induction l with
  | nil => simp [insortStr]
  | cons y ys ih =>
    by_cases h : strLe x y = true
    · simp [insortStr, h]
    · simp only [insortStr, if_neg h]
      exact ((ih.cons y).trans (List.Perm.swap x y ys))

theorem sortStrs_perm (l : List String) : List.Perm (sortStrs l) l := by
  induction l with
  | nil => simp [sortStrs]
  | cons x xs ih =>
    simp only [sortStrs, List.foldr_cons]
    exact (insortStr_perm x (sortStrs xs)).trans (ih.cons x)

theorem insortStr_sorted (x : String) (l : List String)
    (h : l.Sorted strLeP) : (insortStr x l).Sorted strLeP := by
  induction l with
  | nil => simp [insortStr, List.Sorted]
  | cons y ys ih =>
    rcases List.sorted_cons.mp h with ⟨hy, hys⟩
    by_cases hxy : strLe x y = true
    · simp only [insortStr, if_pos hxy]
      exact List.sorted_cons.mpr ⟨fun b hb => by
        rcases List.mem_cons.mp hb with hb | hb
        · exact hb ▸ hxy
        · exact strLe_trans hxy (hy b hb), h⟩
    · simp only [insortStr, if_neg hxy]
      refine List.sorted_cons.mpr ⟨fun b hb => ?_, ih hys⟩
      have hb' := (insortStr_perm x ys).mem_iff.mp hb
      rcases List.mem_cons.mp hb' with hb2 | hb2
      · subst hb2
        rcases strLe_total y b with ht | ht
        · exact ht
        · exact absurd ht hxy
      · exact hy b hb2

theorem sortStrs_sorted (l : List String) : (sortStrs l).Sorted strLeP := by
  induction l with
  | nil => simp [sortStrs, List.Sorted]
  | cons x xs ih => exact insortStr_sorted x (sortStrs xs) ih

theorem insortByKey_perm {α : Type} (x : String × α) (l : List (String × α)) :
    List.Perm (insortByKey x l) (x :: l) := by
  induction l with
  | nil => simp [insortByKey]
  | cons y ys ih =>
    by_cases h : strLe x.1 y.1 = true
    · simp [insortByKey, h]
    · simp only [insortByKey, if_neg h]
      exact ((ih.cons y).trans (List.Perm.swap x y ys))

theorem sortByKey_perm {α : Type} (l : List (String × α)) :
    List.Perm (sortByKey l) l := by
  induction l with
  | nil => simp [sortByKey]
  | cons x xs ih =>
    simp only [sortByKey, List.foldr_cons]
    exact (insortByKey_perm x (sortByKey xs)).trans (ih.cons x)

theorem mem_sortByKey {α : Type} {p : String × α} {l : List (String × α)} :
    p ∈ sortByKey l ↔ p ∈ l := (sortByKey_perm l).mem_iff

/-! ### The type graph

Models the `Node` struct shared (up to the `OmitEmpty` field, which only the
JSDoc-era variant has) by the openapi packages.  The Go `Parent` back-pointer
is not represented; the two functions that consult it (`writeStruct` and
`CollectUndefined`) test only whether a node is the root, which the embedding
expresses by treating the root node separately.  `Child` is a Go map,
modelled as an association list. -/

inductive Node where
  | mk (name : String) (isParam : Bool) (typeExpr : String) (enums : List String)
       (defaultVal : String) (comment : String) (omitEmpty : Bool)
       (child : List (String × Node))

def Node.name : Node → String
  | .mk x _ _ _ _ _ _ _ => x

def Node.isParam : Node → Bool
  | .mk _ x _ _ _ _ _ _ => x

def Node.typeExpr : Node → String
  | .mk _ _ x _ _ _ _ _ => x

def Node.enums : Node → List String
  | .mk _ _ _ x _ _ _ _ => x

def Node.defaultVal : Node → String
  | .mk _ _ _ _ x _ _ _ => x

def Node.comment : Node → String
  | .mk _ _ _ _ _ x _ _ => x

def Node.omitEmpty : Node → Bool
  | .mk _ _ _ _ _ _ x _ => x

def Node.child : Node → List (String × Node)
  | .mk _ _ _ _ _ _ _ x => x

/-- Replace the child list of a node. -/
def Node.withChild : Node → List (String × Node) → Node
  | .mk a b c d e f g _, ch => .mk a b c d e f g ch

/-- Replace the enum list of a node (the observable effect of `quoteEnums`'s
in-place mutation on the node that owns the slice). -/
def Node.withEnums : Node → List String → Node
  | .mk a b c _ e f g h, en => .mk a b c en e f g h

/-- Models Go `newNode` (fresh node with empty children). -/
def Node.new (name : String) : Node := .mk name false "" [] "" "" false []

/-- Go map read `m[k]` (first binding wins; built graphs have unique keys). -/
def lookupChild : List (String × Node) → String → Option Node
  | [], _ => none
  | (k, n) :: rest, key => if k = key then some n else lookupChild rest key

/-- Replace the binding of `key` (which is present) by `n'`. -/
def replaceChild : List (String × Node) → String → Node → List (String × Node)
  | [], _, _ => []
  | (k, n) :: rest, key, n' =>
    if k = key then (k, n') :: rest else (k, n) :: replaceChild rest key n'

/-- Go map write `m[k] = n'`: replace in place when present, append when new. -/
def setChild (cs : List (String × Node)) (key : String) (n' : Node) :
    List (String × Node) :=
  if (lookupChild cs key).isSome then replaceChild cs key n' else cs ++ [(key, n')]

/-- Models Go `ensure(root, name)` when only the side effect is needed:
adds a fresh node under `name` unless one exists. -/
def ensureTop (n : Node) (name : String) : Node :=
  match lookupChild n.child name with
  | some _ => n
  | none => n.withChild (n.child ++ [(name, Node.new name)])

/-- Models the `cur := root; for i, seg := range segments {cur = ensure(cur, seg); …}`
descent of the Go `Build` loop: walks `path` creating missing nodes, and
applies `f` to the node at the last segment. -/
def ensureAt : Node → List String → (Node → Node) → Node
  | n, [], _ => n
  | n, [seg], f =>
    let c := (lookupChild n.child seg).getD (Node.new seg)
    n.withChild (setChild n.child seg (f c))
  | n, seg :: rest₁ :: rest₂, f =>
    let c := (lookupChild n.child seg).getD (Node.new seg)
    n.withChild (setChild n.child seg (ensureAt c (rest₁ :: rest₂) f))

/-- The node reached from `n` by following the path, if any. -/
def findPath : Node → List String → Option Node
  | n, [] => some n
  | n, seg :: rest =>
    match lookupChild n.child seg with
    | some c => findPath c rest
    | none => none

theorem lookupChild_replaceChild_self (cs : List (String × Node)) (k : String)
    (v : Node) (h : (lookupChild cs k).isSome) :
    lookupChild (replaceChild cs k v) k = some v := by
  induction cs with
  | nil => simp [lookupChild] at h
  | cons p rest ih =>
    obtain ⟨key, n⟩ := p
    by_cases hk : key = k
    · simp [replaceChild, lookupChild, hk]
    · simp only [lookupChild, if_neg hk] at h
      simp [replaceChild, lookupChild, hk, ih h]

theorem lookupChild_append_right (cs : List (String × Node)) (k : String)
    (v : Node) (h : lookupChild cs k = none) :
    lookupChild (cs ++ [(k, v)]) k = some v := by
  induction cs with
  | nil => simp [lookupChild]
  | cons p rest ih =>
    obtain ⟨key, n⟩ := p
    by_cases hk : key = k
    · simp [lookupChild, hk] at h
    · simp only [lookupChild, if_neg hk] at h
      simp [lookupChild, hk, ih h]

theorem lookupChild_setChild_self (cs : List (String × Node)) (k : String)
    (v : Node) : lookupChild (setChild cs k v) k = some v := by
  unfold setChild
  by_cases h : (lookupChild cs k).isSome
  · simp only [h, if_pos]
    exact lookupChild_replaceChild_self cs k v h
  · simp only [h, Bool.false_eq_true, if_neg, not_false_iff]
    exact lookupChild_append_right cs k v (by
      cases hh : lookupChild cs k
      · rfl
      · simp [hh] at h)

theorem lookupChild_replaceChild_other (cs : List (String × Node)) (k k' : String)
    (v : Node) (h : k' ≠ k) :
    lookupChild (replaceChild cs k v) k' = lookupChild cs k' := by
  induction cs with
  | nil => simp [replaceChild]
  | cons p rest ih =>
    obtain ⟨key, n⟩ := p
    by_cases hk : key = k
    · subst hk
      have hne : ¬ key = k' := fun hh => h hh.symm
      simp [replaceChild, lookupChild, hne]
    · by_cases hk' : key = k'
      · subst hk'
        simp [replaceChild, lookupChild, h, hk]
      · simp [replaceChild, lookupChild, hk, hk', ih]

theorem lookupChild_append_other (cs : List (String × Node)) (k k' : String)
    (v : Node) (h : k' ≠ k) :
    lookupChild (cs ++ [(k, v)]) k' = lookupChild cs k' := by
  induction cs with
  | nil => simp [lookupChild, Ne.symm h]
  | cons p rest ih =>
    obtain ⟨key, n⟩ := p
    by_cases hk' : key = k'
    · simp [lookupChild, hk']
    · simp [lookupChild, hk', ih]

theorem lookupChild_setChild_other (cs : List (String × Node)) (k k' : String)
    (v : Node) (h : k' ≠ k) :
    lookupChild (setChild cs k v) k' = lookupChild cs k' := by
  unfold setChild
  by_cases hs : (lookupChild cs k).isSome
  · simp only [hs, if_pos]
    exact lookupChild_replaceChild_other cs k k' v h
  · simp only [hs, Bool.false_eq_true, if_neg, not_false_iff]
    exact lookupChild_append_other cs k k' v h

theorem Node.child_withChild (n : Node) (cs : List (String × Node)) :
    (n.withChild cs).child = cs := by
  cases n; rfl

/-- `ensureAt` along an existing path rewrites exactly the node at that path. -/
theorem findPath_ensureAt (p : List String) :
    ∀ (n old : Node) (f : Node → Node), p ≠ [] →
    findPath n p = some old →
    findPath (ensureAt n p f) p = some (f old) := by
  induction p with
  | nil => intro n old f h; exact absurd rfl h
  | cons seg rest ih =>
    intro n old f _ hfind
    cases hl : lookupChild n.child seg with
    | none => simp [findPath, hl] at hfind
    | some c =>
      simp only [findPath, hl] at hfind
      cases rest with
      | nil =>
        simp only [findPath] at hfind
        obtain rfl : c = old := Option.some.inj hfind
        simp [ensureAt, hl, findPath, Node.child_withChild, lookupChild_setChild_self]
      | cons r1 r2 =>
        simp only [ensureAt, hl, Option.getD_some]
        simp only [findPath, Node.child_withChild, lookupChild_setChild_self]
        exact ih c old f (by simp) hfind

/-- `ensureTop` does not disturb any existing non-empty path. -/
theorem findPath_ensureTop (n : Node) (name : String) (seg : String)
    (rest : List String) (res : Node)
    (h : findPath n (seg :: rest) = some res) :
    findPath (ensureTop n name) (seg :: rest) = some res := by
  unfold ensureTop
  cases hl : lookupChild n.child name with
  | some _ => exact h
  | none =>
    cases hseg : lookupChild n.child seg with
    | none => simp [findPath, hseg] at h
    | some c =>
      simp only [findPath, hseg] at h
      have hne : seg ≠ name := by
        intro he; rw [he, hl] at hseg; cases hseg
      simp [findPath, Node.child_withChild,
        lookupChild_append_other n.child name seg (Node.new name) hne, hseg, h]

/-! ### internal/openapi/openapi.go (first compilation unit)

Dotted-path annotation syntax; `Build` rewrites a field's first path segment
through the parameter-to-type alias when the parameter's declared type is a
usable (non-primitive) name. -/

namespace Openapi

/-- The go-openapi string-format alias registry. -/
def stringFormats : List String :=
  ["bsonobjectid", "uri", "email", "hostname", "ipv4", "ipv6", "cidr", "mac",
   "uuid", "uuid3", "uuid4", "uuid5", "isbn", "isbn10", "isbn13",
   "creditcard", "ssn", "hexcolor", "rgbcolor", "byte", "password", "date"]

def isStringFormat (s : String) : Bool := stringFormats.contains s

/-- `isPrimitive` of internal/openapi: plain primitives, string formats and
the semantic aliases (including the three reserved object-ish words). -/
def isPrimitive (t : String) : Bool :=
  isStringFormat t ||
    (["string", "bool", "int", "int32", "int64", "float32", "float64",
      "quantity", "duration", "time", "object",
      "resources", "request", "limit"].contains t)

/-- The `isPrim` closure of `Build`. -/
def isPrim (s : String) : Bool := isPrimitive (strTrimPref s "*")

inductive RKind where
  | kParam
  | kField
deriving DecidableEq

/-- One scanned annotation row (`Raw` of internal/openapi). -/
structure Raw where
  k : RKind
  path : List String
  typeExpr : String
  enums : List String
  defaultVal : String
  description : String

/-- The `addImplicit` closure of `Build`. -/
def addImplicit (root : Node) (name : String) : Node :=
  if name = "" || isPrim name || strHasPref name "[]" || strHasPref name "map[" then
    root
  else
    ensureTop root name

/-- The base name extracted by the implicit-type switch at the end of
`Build`'s loop body. -/
def buildImplicitBase (typeExpr : String) : String :=
  let te := strTrim typeExpr
  if strHasPref te "[]" then
    strTrimPref (strTrim (strDrop te 2)) "*"
  else if strHasPref te "map[" && strContainsRBracket te then
    strTrimPref (strTrim ((strAfterRBracket te).getD "")) "*"
  else
    strTrimPref te "*"

/-- The implicit-type registration performed for each row. -/
def buildImplicit (root : Node) (typeExpr : String) : Node :=
  addImplicit root (buildImplicitBase typeExpr)

/-- The alias rewriting of a field's first path segment at the top of
`Build`'s loop body ("allow `@field <param>.<field>` even when `<param>` is
declared with alias type"). -/
def effSegments (root : Node) (r : Raw) : List String :=
  match r.path with
  | [] => []
  | seg0 :: rest =>
    if r.k = RKind.kField ∧ rest ≠ [] then
      match lookupChild root.child seg0 with
      | some pnode =>
        let al := strTrimPref (strTrim pnode.typeExpr) "*"
        if al ≠ "" ∧ isPrim al = false then al :: rest else seg0 :: rest
      | none => seg0 :: rest
    else
      seg0 :: rest

/-- The scalar-field update performed at the last path segment of a row. -/
def applyRaw (r : Raw) : Node → Node
  | .mk name isP _ _ dv _ oe ch =>
    .mk name (if r.k = RKind.kParam then true else isP) r.typeExpr r.enums
      (if r.defaultVal ≠ "" then r.defaultVal else dv) r.description oe ch

/-- One iteration of the `Build` loop of internal/openapi. -/
def buildStep (root : Node) (r : Raw) : Node :=
  buildImplicit (ensureAt root (effSegments root r) (applyRaw r)) r.typeExpr

/-- `Build` of internal/openapi. -/
def Build (rows : List Raw) : Node :=
  rows.foldl buildStep (Node.new "Config")

theorem findPath_addImplicit (n : Node) (name seg : String)
    (rest : List String) (res : Node)
    (h : findPath n (seg :: rest) = some res) :
    findPath (addImplicit n name) (seg :: rest) = some res := by
  unfold addImplicit
  split
  · exact h
  · exact findPath_ensureTop n name seg rest res h

theorem findPath_buildImplicit (n : Node) (te seg : String)
    (rest : List String) (res : Node)
    (h : findPath n (seg :: rest) = some res) :
    findPath (buildImplicit n te) (seg :: rest) = some res :=
  findPath_addImplicit n (buildImplicitBase te) seg rest res h

/-- **C3 (amended).**  For a parameter node `P` whose declared type
expression has the non-primitive base `T`, a field row addressed through the
parameter name (`@field P.x`) is rewritten by `Build` to the path `T.x`, so
it lands on the exact same node as a field row addressed through the type
name, and the two spellings produce structurally identical graphs — provided
the node `T`, if it already exists, does not itself carry a further
rewritable (non-empty, non-primitive) alias.  Without that proviso the claim
fails: the rewrite reads the type expression of whatever node sits under the
first path segment, including the node `T` itself (see the
counterexample). -/
theorem field_alias_same_node
    (pre post : List Raw) (P T x typeExpr : String) (en : List String)
    (dv ds : String) (pn : Node)
    (hP : lookupChild (Build pre).child P = some pn)
    (hT : strTrimPref (strTrim pn.typeExpr) "*" = T)
    (hne : T ≠ "") (hprim : isPrim T = false)
    (hTnode : ∀ tn, lookupChild (Build pre).child T = some tn →
      strTrimPref (strTrim tn.typeExpr) "*" = "" ∨
        isPrim (strTrimPref (strTrim tn.typeExpr) "*") = true) :
    Build (pre ++ ⟨.kField, [P, x], typeExpr, en, dv, ds⟩ :: post) =
      Build (pre ++ ⟨.kField, [T, x], typeExpr, en, dv, ds⟩ :: post) := by
  have hseg1 : effSegments (Build pre) ⟨.kField, [P, x], typeExpr, en, dv, ds⟩
      = [T, x] := by
    simp [effSegments, hP, hT, hne, hprim]
  have hseg2 : effSegments (Build pre) ⟨.kField, [T, x], typeExpr, en, dv, ds⟩
      = [T, x] := by
    cases hl : lookupChild (Build pre).child T with
    | none => simp [effSegments, hl]
    | some tn =>
      rcases hTnode tn hl with ha | ha
      · simp [effSegments, hl, ha]
      · simp [effSegments, hl, ha]
  have key : buildStep (Build pre) ⟨.kField, [P, x], typeExpr, en, dv, ds⟩ =
      buildStep (Build pre) ⟨.kField, [T, x], typeExpr, en, dv, ds⟩ := by
    unfold buildStep
    rw [hseg1, hseg2]
    have happ : applyRaw ⟨.kField, [P, x], typeExpr, en, dv, ds⟩ =
        applyRaw ⟨.kField, [T, x], typeExpr, en, dv, ds⟩ :=
      funext fun n => by cases n; rfl
    rw [happ]
  simp only [Build, List.foldl_append, List.foldl_cons]
  show List.foldl buildStep (buildStep (List.foldl buildStep _ pre) _) post = _
  rw [show List.foldl buildStep (Node.new "Config") pre = Build pre from rfl, key]

/-- Concrete prefix used by the C3 witness: one parameter of type `dbType`. -/
def c3pre : List Raw := [⟨.kParam, ["db"], "dbType", [], "", "d"⟩]

/-- Witness for C3 at a concrete instance. -/
theorem field_alias_same_node_witness :
    Build (c3pre ++ ⟨.kField, ["db", "host"], "string", [], "", ""⟩ :: []) =
      Build (c3pre ++ ⟨.kField, ["dbType", "host"], "string", [], "", ""⟩ :: []) := by
  refine field_alias_same_node c3pre [] "db" "dbType" "host" "string" [] "" ""
    (Node.mk "db" true "dbType" [] "" "d" false []) rfl (by decide) (by decide)
    (by decide) ?_
  intro tn h
  have h' : some (Node.new "dbType") = some tn := h ▸ rfl
  have : Node.new "dbType" = tn := Option.some.inj h'
  subst this
  left
  decide

/-- The prefix of the C3 counterexample: the parameter `db` is declared with
type `dbType`, and `dbType` is itself declared as a parameter with the
non-primitive type `connType`. -/
def c3pre2 : List Raw :=
  [⟨.kParam, ["db"], "dbType", [], "", ""⟩,
   ⟨.kParam, ["dbType"], "connType", [], "", ""⟩]

/-- The graph built with the field addressed through the parameter name. -/
def c3gP : Node :=
  Build (c3pre2 ++ [⟨.kField, ["db", "host"], "string", [], "", ""⟩])

/-- The graph built with the field addressed through the type name. -/
def c3gT : Node :=
  Build (c3pre2 ++ [⟨.kField, ["dbType", "host"], "string", [], "", ""⟩])

/-- **C3 counterexample.**  When the type node `T` itself carries a
non-primitive alias (`@param {dbType} db` together with
`@param {connType} dbType`), the two spellings do not populate the same
node: `@field db.host` is rewritten one step to `dbType.host`, while
`@field dbType.host` is rewritten one step further to `connType.host` —
the first graph has a node at `dbType.host` and none at `connType.host`,
the second the other way around, so the graphs are not structurally
identical. -/
theorem field_alias_claim_counterexample :
    (findPath c3gP ["dbType", "host"]).isSome = true ∧
    (findPath c3gP ["connType", "host"]).isSome = false ∧
    (findPath c3gT ["dbType", "host"]).isSome = false ∧
    (findPath c3gT ["connType", "host"]).isSome = true ∧
    c3gP ≠ c3gT := by
  refine ⟨rfl, rfl, rfl, rfl, ?_⟩
  intro he
  have h1 : (findPath c3gP ["dbType", "host"]).isSome = true := rfl
  have h2 : (findPath c3gT ["dbType", "host"]).isSome = false := rfl
  rw [he] at h1
  exact Bool.noConfusion (h1.symm.trans h2)

/-- First declaration of the duplicated path (carries a default). -/
def c5row1 : Raw := ⟨.kParam, ["foo"], "int", [], "5", "first"⟩

/-- Second declaration of the same path (no default). -/
def c5row2 : Raw := ⟨.kParam, ["foo"], "string", [], "", "second"⟩

/-- **C5 counterexample.**  The claim says the duplicated node's scalar
fields — including the default — come from the later declaration.  Here the
later declaration's default is empty, yet the node keeps the earlier default
`5`, so the default does not come from the later declaration. -/
theorem duplicate_path_default_counterexample :
    (findPath (Build [c5row1, c5row2]) ["foo"]).map Node.defaultVal = some "5" ∧
      c5row2.defaultVal = "" ∧ ("5" : String) ≠ "" := by
  refine ⟨?_, rfl, by decide⟩
  rfl

/-- **C5 (amended).**  When a row re-declares an existing path, the `Build`
step leaves a single node at that path: its type expression, comment and
enum list come from the new row; its default comes from the new row only
when the new row's default is non-empty, otherwise the old default is kept;
its children (and name) are exactly those it had before. -/
theorem duplicate_path_overwrite
    (s : Node) (r : Raw) (p : List String) (old : Node)
    (hp : effSegments s r = p) (hne : p ≠ [])
    (hold : findPath s p = some old) :
    ∃ nw, findPath (buildStep s r) p = some nw ∧
      nw.typeExpr = r.typeExpr ∧ nw.comment = r.description ∧
      nw.enums = r.enums ∧
      nw.defaultVal = (if r.defaultVal ≠ "" then r.defaultVal else old.defaultVal) ∧
      nw.child = old.child ∧ nw.name = old.name ∧
      nw.isParam = (if r.k = RKind.kParam then true else old.isParam) := by
  refine ⟨applyRaw r old, ?_, ?_, ?_, ?_, ?_, ?_, ?_, ?_⟩
  · unfold buildStep
    rw [hp]
    cases p with
    | nil => exact absurd rfl hne
    | cons seg rest =>
      exact findPath_buildImplicit _ r.typeExpr seg rest _
        (findPath_ensureAt (seg :: rest) s old (applyRaw r) (by simp) hold)
  all_goals (cases old; rfl)

/-- Witness for the amended C5 at a concrete instance: re-declaring `foo`
with an empty default keeps the old default and the old children. -/
theorem duplicate_path_overwrite_witness :
    ∃ nw, findPath (buildStep (Build [c5row1]) c5row2) ["foo"] = some nw ∧
      nw.typeExpr = c5row2.typeExpr ∧ nw.comment = c5row2.description ∧
      nw.enums = c5row2.enums ∧
      nw.defaultVal = (if c5row2.defaultVal ≠ "" then c5row2.defaultVal else
        (Node.mk "foo" true "int" [] "5" "first" false []).defaultVal) ∧
      nw.child = (Node.mk "foo" true "int" [] "5" "first" false []).child ∧
      nw.name = (Node.mk "foo" true "int" [] "5" "first" false []).name ∧
      nw.isParam = (if c5row2.k = RKind.kParam then true else
        (Node.mk "foo" true "int" [] "5" "first" false []).isParam) :=
  duplicate_path_overwrite (Build [c5row1]) c5row2 ["foo"]
    (Node.mk "foo" true "int" [] "5" "first" false []) rfl (by decide) rfl

end Openapi

/-! ### YAML values

Models the `interface{}` trees produced by unmarshalling YAML documents.
`float64` scalars are not represented separately: every function modelled
here treats them exactly like the other scalar constructors (same `switch`
branch), so nothing in the claims distinguishes them from `int`. -/

inductive Yaml where
  | str (s : String)
  | int (n : Int)
  | bool (b : Bool)
  | nul
  | arr (xs : List Yaml)
  | map (kvs : List (String × Yaml))

/-! ### The JSDoc-era openapi package (the current one)

`Parse` recognises `@param`/`@field`/`@typedef`/`@enum`; `Build` produces a
`Node` graph; `CollectUndefined` compares referenced and defined type names;
`gen` emits Go struct declarations. -/

namespace OpenapiJS

/-- `isPrimitive` of the JSDoc openapi package — byte-identical to the
internal/openapi one. -/
def isPrimitive : String → Bool := Openapi.isPrimitive

def isStringFormat : String → Bool := Openapi.isStringFormat

/-- The `baseOf` closure of `CollectUndefined`: trim space, strip a leading
`*`, then a leading `[]` (and an inner `*`), then a leading `map[...]`
(everything up to the first `]`, and an inner `*`). -/
def baseOf (expr : String) : String :=
  let e0 := strTrim expr
  if e0 = "" then ""
  else
    let e1 := if strHasPref e0 "*" then strTrimPref e0 "*" else e0
    let e2 :=
      if strHasPref e1 "[]" then
        let t := strTrim (strDrop e1 2)
        if strHasPref t "*" then strTrimPref t "*" else t
      else e1
    let e3 :=
      if strHasPref e2 "map[" then
        match dropThroughChar ']' e2.data with
        | some rest =>
          let t := strTrim ⟨rest⟩
          if strHasPref t "*" then strTrimPref t "*" else t
        | none => e2
      else e2
    e3

mutual

/-- All nodes of the tree, in depth-first preorder (the order in which the
Go `walk` closures visit them). -/
def allNodes : Node → List Node
  | .mk a b c d e f g ch => .mk a b c d e f g ch :: allNodesList ch

def allNodesList : List (String × Node) → List Node
  | [] => []
  | (_, c) :: rest => allNodes c ++ allNodesList rest

end

/-- All nodes except the root — the nodes with `n.Parent != nil`. -/
def descendants (n : Node) : List Node := allNodesList n.child

/-- The referenced-side filter of `CollectUndefined`'s walk (the condition
under which `baseOf n.TypeExpr` is inserted into `referenced`). -/
def refCond (b : String) : Prop :=
  b ≠ "" ∧ b ≠ "object" ∧ b ≠ "emptyobject" ∧ b ≠ "struct" ∧
    b ≠ "resources" ∧ b ≠ "request" ∧ b ≠ "limit" ∧
    isPrimitive b = false ∧
    strHasPref b "[]" = false ∧ strHasPref b "map[" = false

instance (b : String) : Decidable (refCond b) := by
  unfold refCond; infer_instance

/-- The defined-side filter of `CollectUndefined`'s walk (the condition
under which a non-root node's trimmed name is inserted into `defined`). -/
def defCond (n : Node) : Prop :=
  let base := strTrimPref n.name "*"
  base ≠ "" ∧ base ≠ "object" ∧ base ≠ "emptyobject" ∧ base ≠ "struct" ∧
    isPrimitive base = false ∧
    strHasPref base "[]" = false ∧ strHasPref base "map[" = false ∧
    (n.child.isEmpty = false ∨ n.enums.isEmpty = false)

instance (n : Node) : Decidable (defCond n) := by
  unfold defCond; infer_instance

/-- Contribution of one visited node to the `referenced` set. -/
def refContrib (n : Node) : List String :=
  if refCond (baseOf n.typeExpr) then [baseOf n.typeExpr] else []

/-- Contribution of one visited non-root node to the `defined` set. -/
def defContrib (n : Node) : List String :=
  if defCond n then [strTrimPref n.name "*"] else []

/-- The `referenced` set of `CollectUndefined` (as the walk's visit list;
the Go code stores it in a map, so only membership matters). -/
def collectRef (root : Node) : List String :=
  (allNodes root).flatMap refContrib

/-- The `defined` set of `CollectUndefined`. -/
def collectDef (root : Node) : List String :=
  (descendants root).flatMap defContrib

/-- `CollectUndefined` of the JSDoc openapi package: referenced names that
are never defined, deduplicated (the Go sets) and sorted. -/
def CollectUndefined (root : Node) : List String :=
  sortStrs ((collectRef root).dedup.filter
    (fun t => (collectDef root).contains t = false))

/-- The exclusion list exactly as the claim words it (primitives,
string-format aliases, the semantic aliases object/emptyobject, and the
reserved words resources/request/limit) — used to exhibit the
counterexample. -/
def claimExcludedOrig (t : String) : Prop :=
  t ∈ ["string", "bool", "int", "int32", "int64", "float32", "float64"] ∨
    t ∈ Openapi.stringFormats ∨
    t = "object" ∨ t = "emptyobject" ∨
    t ∈ ["resources", "request", "limit"] ∨
    strHasPref t "[]" = true ∨ strHasPref t "map[" = true

instance (t : String) : Decidable (claimExcludedOrig t) := by
  unfold claimExcludedOrig; infer_instance

/-- The amended exclusion list: additionally the remaining semantic aliases
`quantity`/`duration`/`time` and the keyword `struct`. -/
def claimExcluded (t : String) : Prop :=
  t ∈ ["string", "bool", "int", "int32", "int64", "float32", "float64"] ∨
    t ∈ Openapi.stringFormats ∨
    t ∈ ["quantity", "duration", "time"] ∨
    t = "object" ∨ t = "emptyobject" ∨ t = "struct" ∨
    t ∈ ["resources", "request", "limit"] ∨
    strHasPref t "[]" = true ∨ strHasPref t "map[" = true

instance (t : String) : Decidable (claimExcluded t) := by
  unfold claimExcluded; infer_instance

/-- Claim-side "referenced": `t` appears as the base of some node's type
expression and is not excluded. -/
def specReferenced (root : Node) (t : String) : Prop :=
  t ≠ "" ∧ ¬ claimExcluded t ∧ ∃ n ∈ allNodes root, baseOf n.typeExpr = t

/-- Claim-side "defined": some node (below the root) named `t` (after
stripping a pointer marker) has children or enum values. -/
def specDefined (root : Node) (t : String) : Prop :=
  ∃ m ∈ descendants root, strTrimPref m.name "*" = t ∧
    (m.child.isEmpty = false ∨ m.enums.isEmpty = false)

theorem refCond_iff_not_claimExcluded (t : String) (ht : t ≠ "") :
    refCond t ↔ ¬ claimExcluded t := by
  simp [refCond, claimExcluded, isPrimitive, Openapi.isPrimitive,
    isStringFormat, Openapi.isStringFormat, ht]
  tauto

end OpenapiJS

/-! #### Generator state and type resolution -/

/-- The mutable fields of the Go `gen` struct (minus `pkg`, which is a
constant parameter): output buffer, import map (path → alias, insertion
ordered), free-form type set, and the defined-complex-type set `def`. -/
structure GenSt where
  buf : String
  imp : List (String × String)
  ff : List String
  defs : List String

/-- `gen.addImpAlias`: record an import path with an alias unless present. -/
def addImpAlias (st : GenSt) (path al : String) : GenSt :=
  if (st.imp.lookup path).isSome then st
  else { st with imp := st.imp ++ [(path, al)] }

/-- `gen.addImp`. -/
def addImp (st : GenSt) (path : String) : GenSt := addImpAlias st path ""

/-- The `Config`/`ConfigSpec` collision rename applied after `camel`. -/
def renameConfig (c : String) : String :=
  if c = "Config" ∨ c = "ConfigSpec" then "Values" ++ c else c

/-- Models Go `strings.LastIndex(s, ".")` together with the two slices
`s[:idx]` and `s[idx+1:]`. -/
def lastDotSplit (s : String) : Option (String × String) :=
  match dropThroughChar '.' s.data.reverse with
  | none => none
  | some restRev =>
    some (⟨restRev.reverse⟩, ⟨(s.data.reverse.takeWhile (fun c => c != '.')).reverse⟩)

/-- Models Go `strings.Trim(s, cutset)` for a one-character cutset. -/
def strTrimChar (c : Char) (s : String) : String :=
  ⟨((s.data.dropWhile (· = c)).reverse.dropWhile (· = c)).reverse⟩

theorem length_dropWhile_le {α : Type} (p : α → Bool) (l : List α) :
    (l.dropWhile p).length ≤ l.length :=
  (List.dropWhile_sublist p).length_le

theorem length_strTrim_le (s : String) :
    (strTrim s).data.length ≤ s.data.length := by
  unfold strTrim
  simp only [List.length_reverse]
  exact le_trans (length_dropWhile_le _ _)
    (by simpa using length_dropWhile_le (fun c => Char.isWhitespace c) s.data)

theorem length_strTrimPref_le (s p : String) :
    (strTrimPref s p).data.length ≤ s.data.length := by
  unfold strTrimPref strDrop
  split
  · simp [List.length_drop]
  · exact le_refl _

theorem length_dropThroughChar_lt {c : Char} :
    ∀ {l r : List Char}, dropThroughChar c l = some r → r.length < l.length := by
  intro l
  induction l with
  | nil => intro r h; simp [dropThroughChar] at h
  | cons x xs ih =>
    intro r h
    unfold dropThroughChar at h
    by_cases hx : x = c
    · rw [if_pos hx] at h
      obtain rfl : xs = r := Option.some.inj h
      simp
    · rw [if_neg hx] at h
      exact lt_trans (ih h) (by simp)

theorem length_afterRBracket_lt (s : String)
    (h : strContainsRBracket s = true) :
    ((strAfterRBracket s).getD "").data.length < s.data.length := by
  unfold strContainsRBracket at h
  unfold strAfterRBracket
  cases hd : dropThroughChar ']' s.data with
  | none => rw [hd] at h; simp at h
  | some r =>
    simpa [hd] using length_dropThroughChar_lt hd

theorem length_of_hasPref {s p : String} (h : strHasPref s p = true) :
    p.data.length ≤ s.data.length := by
  unfold strHasPref at h
  exact (List.isPrefixOf_iff_prefix.mp h).length_le

namespace OpenapiJS

/-- `gen.resolve` of the JSDoc openapi package: maps a raw type expression
to its Go type text, accumulating imports in the state; the reserved words
`resources`/`request`/`limit` resolve to the camelled user type when the
`def` set knows a complex type of that name, and fall back to
`k8sRuntime.RawExtension` otherwise. -/
def resolve (st : GenSt) (raw0 : String) : GenSt × String :=
  let raw := strTrim raw0
  if raw = "" then (st, "string")
  else if isStringFormat raw then (st, "string")
  else if strHasPref raw "[]" then
    let p := resolve st (strTrimPref (strTrim (strDrop raw 2)) "*")
    (p.1, "[]" ++ p.2)
  else if strHasPref raw "map[" && strContainsRBracket raw then
    let p := resolve st (strTrimPref (strTrim ((strAfterRBracket raw).getD "")) "*")
    (p.1, "map[string]" ++ p.2)
  else if raw = "quantity" then
    (addImpAlias st "k8s.io/apimachinery/pkg/api/resource" "resource", "resource.Quantity")
  else if raw = "duration" then
    (addImpAlias st "k8s.io/apimachinery/pkg/apis/meta/v1" "metav1", "metav1.Duration")
  else if raw = "time" then
    (addImpAlias st "k8s.io/apimachinery/pkg/apis/meta/v1" "metav1", "metav1.Time")
  else if raw = "object" then
    (addImpAlias st "k8s.io/apimachinery/pkg/runtime" "k8sRuntime", "k8sRuntime.RawExtension")
  else if raw = "resources" ∨ raw = "request" ∨ raw = "limit" then
    if st.defs.contains raw ∨ st.defs.contains (camel raw) then
      (st, renameConfig (camel raw))
    else
      (addImpAlias st "k8s.io/apimachinery/pkg/runtime" "k8sRuntime", "k8sRuntime.RawExtension")
  else if isPrimitive raw ∨ raw = "any" then (st, raw)
  else
    match lastDotSplit raw with
    | some pq => (addImpAlias st pq.1 "", renameConfig (camel pq.2))
    | none => (st, renameConfig (camel raw))
termination_by raw0.data.length
decreasing_by
  · rename_i _h1 _h2 h3
    have hA : (strTrim raw0).data.length ≤ raw0.data.length := length_strTrim_le _
    have hB : 2 ≤ (strTrim raw0).data.length := by
      have := length_of_hasPref h3
      simpa using this
    have hC : (strDrop (strTrim raw0) 2).data.length = (strTrim raw0).data.length - 2 := by
      simp [strDrop]
    have hD : (strTrim (strDrop (strTrim raw0) 2)).data.length ≤
        (strDrop (strTrim raw0) 2).data.length := length_strTrim_le _
    have hE := length_strTrimPref_le (strTrim (strDrop (strTrim raw0) 2)) "*"
    omega
  · rename_i _h1 _h2 _h3 h4
    have hA : (strTrim raw0).data.length ≤ raw0.data.length := length_strTrim_le _
    have hB : ((strAfterRBracket (strTrim raw0)).getD "").data.length <
        (strTrim raw0).data.length :=
      length_afterRBracket_lt _ (by
        have := h4
        simp only [Bool.and_eq_true] at this
        exact this.2)
    have hD : (strTrim ((strAfterRBracket (strTrim raw0)).getD "")).data.length ≤
        ((strAfterRBracket (strTrim raw0)).getD "").data.length := length_strTrim_le _
    have hE := length_strTrimPref_le
      (strTrim ((strAfterRBracket (strTrim raw0)).getD "")) "*"
    omega

/-- `gen.goType`: the Go type text of a node, handling the empty expression
(anonymous object or plain string) and `*`/`[]`/`map[` shells before
delegating to `resolve`. -/
def goType (st : GenSt) (n : Node) : GenSt × String :=
  let raw := strTrim n.typeExpr
  if raw = "" then
    if n.child.isEmpty = false then (st, renameConfig (camel n.name))
    else (st, "string")
  else if strHasPref raw "*" then
    let p := resolve st (strTrimPref raw "*")
    (p.1, "*" ++ p.2)
  else if strHasPref raw "[]" then
    let p := resolve st (strTrimPref (strTrim (strDrop raw 2)) "*")
    (p.1, "[]" ++ p.2)
  else if strHasPref raw "map[" && strContainsRBracket raw then
    let p := resolve st (strTrimPref (strTrim ((strAfterRBracket raw).getD "")) "*")
    (p.1, "map[string]" ++ p.2)
  else
    resolve st raw

/-- The element-wise rewriting `quoteEnums` performs on the enum slice.
Go's `quoteEnums` overwrites `vals[i]` in place with `fmt.Sprintf("%q", v)`;
the callers below thread the rewritten slice back into the node. -/
def quoteEnumsList (vals : List String) : List String := vals.map goQuote

/-- The string `quoteEnums` returns: the quoted members joined by `;`. -/
def quoteEnums (vals : List String) : String := strJoin ";" (quoteEnumsList vals)

/-- `toGoLiteral`: renders a parsed YAML value as a kubebuilder default
literal (maps with sorted keys). -/
def toGoLiteral : Yaml → String
  | .str s => goQuote s
  | .bool b => if b then "true" else "false"
  | .int n => toString n
  | .nul => "<nil>"
  | .arr xs =>
    "\x7b" ++ strJoin "," (xs.attach.map (fun p => toGoLiteral p.1)) ++ "\x7d"
  | .map kvs =>
    "\x7b" ++ strJoin ","
      ((sortByKey kvs).attach.map
        (fun p => goQuote p.1.1 ++ ":" ++ toGoLiteral p.1.2)) ++ "\x7d"
termination_by y => sizeOf y
decreasing_by
  · obtain ⟨y, hmem⟩ := p
    have := List.sizeOf_lt_of_mem hmem
    simp only [Yaml.arr.sizeOf_spec]
    omega
  · obtain ⟨⟨k, v⟩, hmem⟩ := p
    have hm : (k, v) ∈ kvs := mem_sortByKey.mp hmem
    have := List.sizeOf_lt_of_mem hm
    simp only [Prod.mk.sizeOf_spec] at this
    simp only [Yaml.map.sizeOf_spec]
    omega

/-- `formatDefault` of the JSDoc openapi package.  `sigyaml.Unmarshal` is an
external library call, modelled by the `yamlParse` parameter (`none` models
a parse error). -/
def formatDefault (yamlParse : String → Option Yaml) (val typ : String) : String :=
  let t := strTrimPref typ "*"
  if t = camel "emptyobject" then ""
  else if t = "string" ∨ t = "quantity" then goQuote (strTrimChar quoteCh val)
  else
    match yamlParse val with
    | some parsed => toGoLiteral parsed
    | none => val

/-- The struct-tag computation at the end of `emitField`. -/
def jsonTag (c : Node) (typ : String) : String :=
  let tag := "`json:\"" ++ c.name
  let tag :=
    if strHasPref typ "[]" ∨ strHasPref typ "map[" ∨ strHasPref typ "*" ∨
        c.omitEmpty = true then
      tag ++ ",omitempty"
    else tag
  tag ++ "\"`"

/-- `gen.emitField`: renders one struct field (comment, format marker, enum
marker, default marker, field line) and returns the node as mutated by
`quoteEnums` (its enum slice rewritten to the quoted members). -/
def emitField (yamlParse : String → Option Yaml) (st : GenSt) (c : Node) :
    GenSt × Node :=
  let field := camel c.name
  let p := goType st c
  let st1 := p.1
  let typ := p.2
  let st2 :=
    if c.comment ≠ "" then
      { st1 with buf := st1.buf ++ "    // " ++ c.comment ++ "\n" }
    else st1
  let f := strTrimPref (strTrim c.typeExpr) "*"
  let st3 :=
    if isStringFormat f = true ∧ strHasPref typ "[]" = false ∧
        strHasPref typ "map[" = false then
      { st2 with buf := st2.buf ++ "    // +kubebuilder:validation:Format=" ++ f ++ "\n" }
    else st2
  let st4c :=
    if c.enums.isEmpty = false then
      ({ st3 with
          buf := st3.buf ++ "    // +kubebuilder:validation:Enum=" ++
            quoteEnums c.enums ++ "\n" },
        c.withEnums (quoteEnumsList c.enums))
    else (st3, c)
  let st4 := st4c.1
  let c' := st4c.2
  let st5 :=
    if c.defaultVal ≠ "" then
      let d := formatDefault yamlParse c.defaultVal typ
      if d ≠ "" then
        { st4 with buf := st4.buf ++ "    // +kubebuilder:default:=" ++ d ++ "\n" }
      else st4
    else st4
  ({ st5 with
      buf := st5.buf ++ "    " ++ field ++ " " ++ typ ++ " " ++ jsonTag c typ ++ "\n" },
    c')

/-- `gen.writeEnum`: renders a root-level enum type declaration and returns
the node as mutated by `quoteEnums`. -/
def writeEnum (st : GenSt) (n : Node) : GenSt × Node :=
  if n.enums.isEmpty then (st, n)
  else
    let name := renameConfig (camel n.name)
    let baseType := if n.typeExpr = "" then "string" else n.typeExpr
    ({ st with
        buf := st.buf ++ "// +kubebuilder:validation:Enum=" ++ quoteEnums n.enums ++
          "\n" ++ "type " ++ name ++ " " ++ baseType ++ "\n\n" },
      n.withEnums (quoteEnumsList n.enums))

/-! #### The struct emitter

`writeStruct` recurses over the graph through Go-map iteration; the
association-list order models the iteration order.  The termination measure
is the number of nodes (`shapeSize`), which field emission leaves
unchanged (it only rewrites enum slices). -/

mutual

/-- The number of nodes in a subtree. -/
def shapeSize : Node → Nat
  | .mk _ _ _ _ _ _ _ ch => 1 + shapeSizeList ch

def shapeSizeList : List (String × Node) → Nat
  | [] => 0
  | (_, c) :: rest => shapeSize c + shapeSizeList rest

end

theorem shapeSize_pos (n : Node) : 1 ≤ shapeSize n := by
  cases n
  rw [shapeSize]
  omega

theorem shapeSize_withEnums (n : Node) (en : List String) :
    shapeSize (n.withEnums en) = shapeSize n := by
  cases n
  rw [Node.withEnums, shapeSize, shapeSize]

/-- The node returned by `emitField` is the input with its enum slice
rewritten by `quoteEnums` (when non-empty). -/
theorem emitField_node (yp : String → Option Yaml) (st : GenSt) (c : Node) :
    (emitField yp st c).2 =
      if c.enums.isEmpty = false then c.withEnums (quoteEnumsList c.enums)
      else c := by
  unfold emitField
  by_cases h : c.enums.isEmpty = false <;> simp [h]

theorem emitField_shape (yp : String → Option Yaml) (st : GenSt) (c : Node) :
    shapeSize (emitField yp st c).2 = shapeSize c := by
  rw [emitField_node]
  split <;> simp [shapeSize_withEnums]

theorem shapeSizeList_replaceChild (cs : List (String × Node)) (k : String)
    (c c' : Node) (hl : lookupChild cs k = some c)
    (hs : shapeSize c' = shapeSize c) :
    shapeSizeList (replaceChild cs k c') = shapeSizeList cs := by
  induction cs with
  | nil => simp [replaceChild]
  | cons p rest ih =>
    obtain ⟨key, n⟩ := p
    by_cases hk : key = k
    · simp only [lookupChild, if_pos hk] at hl
      obtain rfl : n = c := Option.some.inj hl
      simp [replaceChild, hk, shapeSizeList, hs]
    · simp only [lookupChild, if_neg hk] at hl
      simp [replaceChild, hk, shapeSizeList, ih hl]

/-- The per-key field-emission loop of the non-root `writeStruct` branch:
`keys := sortedKeys(n.Child); for _, k := range keys { g.emitField(n.Child[k]) }`,
threading the enum-slice mutations back into the child map. -/
def emitFieldsSorted (yp : String → Option Yaml) (st : GenSt) :
    List String → List (String × Node) → GenSt × List (String × Node)
  | [], cs => (st, cs)
  | k :: rest, cs =>
    match lookupChild cs k with
    | some c =>
      let p := emitField yp st c
      emitFieldsSorted yp p.1 rest (replaceChild cs k p.2)
    | none => emitFieldsSorted yp st rest cs

/-- The per-key loop of the root branch, which skips non-parameter nodes
(`if !c.IsParam { continue }`). -/
def emitParamFieldsSorted (yp : String → Option Yaml) (st : GenSt) :
    List String → List (String × Node) → GenSt × List (String × Node)
  | [], cs => (st, cs)
  | k :: rest, cs =>
    match lookupChild cs k with
    | some c =>
      if c.isParam = true then
        let p := emitField yp st c
        emitParamFieldsSorted yp p.1 rest (replaceChild cs k p.2)
      else emitParamFieldsSorted yp st rest cs
    | none => emitParamFieldsSorted yp st rest cs

theorem emitFieldsSorted_shape (yp : String → Option Yaml) :
    ∀ (keys : List String) (st : GenSt) (cs : List (String × Node)),
    shapeSizeList (emitFieldsSorted yp st keys cs).2 = shapeSizeList cs := by
  intro keys
  induction keys with
  | nil => intro st cs; rfl
  | cons k rest ih =>
    intro st cs
    rw [emitFieldsSorted]
    cases hl : lookupChild cs k with
    | none => exact ih st cs
    | some c =>
      simp only []
      rw [ih]
      exact shapeSizeList_replaceChild cs k c _ hl (emitField_shape yp st c)

theorem emitParamFieldsSorted_shape (yp : String → Option Yaml) :
    ∀ (keys : List String) (st : GenSt) (cs : List (String × Node)),
    shapeSizeList (emitParamFieldsSorted yp st keys cs).2 = shapeSizeList cs := by
  intro keys
  induction keys with
  | nil => intro st cs; rfl
  | cons k rest ih =>
    intro st cs
    rw [emitParamFieldsSorted]
    cases hl : lookupChild cs k with
    | none => exact ih st cs
    | some c =>
      by_cases hp : c.isParam = true
      · simp only [hp, if_pos]
        rw [ih]
        exact shapeSizeList_replaceChild cs k c _ hl (emitField_shape yp st c)
      · simp only [hp]
        exact ih st cs

/-- The keys of a child map. -/
def keysOf (cs : List (String × Node)) : List String := cs.map Prod.fst

mutual

/-- `gen.writeStruct` for non-root nodes: skip bracket-named nodes, skip
leaf nodes with an explicit type, otherwise emit a struct declaration with
fields in sorted-key order, then recurse into every child in map order. -/
def writeStruct (yp : String → Option Yaml) (st : GenSt) (n : Node) :
    GenSt × Node :=
  if strHasPref n.name "[]" ∨ strHasPref n.name "map[" then (st, n)
  else if n.child.isEmpty = true ∧ strTrim n.typeExpr ≠ "" then (st, n)
  else
    let name := renameConfig (camel n.name)
    let st1 := { st with buf := st.buf ++ "type " ++ name ++ " struct \x7b\n" }
    let q := emitFieldsSorted yp st1 (sortStrs (keysOf n.child)) n.child
    let st3 := { q.1 with buf := q.1.buf ++ "\x7d\n\n" }
    let r := writeStructChildren yp st3 q.2
    (r.1, n.withChild r.2)
termination_by (shapeSize n, 0)
decreasing_by
  have hq := emitFieldsSorted_shape yp (sortStrs (keysOf n.child))
    { st with buf := st.buf ++ "type " ++ renameConfig (camel n.name) ++ " struct \x7b\n" }
    n.child
  have hn : shapeSize n = 1 + shapeSizeList n.child := by
    cases n
    rw [shapeSize]
    rfl
  exact Prod.Lex.left _ _ (by omega)

/-- The `for _, c := range n.Child { g.writeStruct(c) }` recursion. -/
def writeStructChildren (yp : String → Option Yaml) (st : GenSt) :
    List (String × Node) → GenSt × List (String × Node)
  | [] => (st, [])
  | (k, c) :: rest =>
    let p := writeStruct yp st c
    let q := writeStructChildren yp p.1 rest
    (q.1, (k, p.2) :: q.2)
termination_by cs => (shapeSizeList cs, 1)
decreasing_by
  · rename_i k
    by_cases h : shapeSizeList rest = 0
    · have he : shapeSizeList ((k, c) :: rest) = shapeSize c := by
        rw [shapeSizeList]
        omega
      rw [he]
      exact Prod.Lex.right _ (by omega)
    · refine Prod.Lex.left _ _ ?_
      rw [shapeSizeList]
      omega
  · refine Prod.Lex.left _ _ ?_
    rw [shapeSizeList]
    have := shapeSize_pos c
    omega

end

/-- `gen.writeStruct` on the root node (`n.Parent == nil`): emits the
`Config`/`ConfigSpec` wrappers, the parameter fields in sorted order, then
recurses into every child. -/
def writeStructRoot (yp : String → Option Yaml) (st : GenSt) (n : Node) :
    GenSt × Node :=
  if strHasPref n.name "[]" ∨ strHasPref n.name "map[" then (st, n)
  else
    let st0 := addImp st "k8s.io/apimachinery/pkg/apis/meta/v1"
    let st1 := { st0 with buf := st0.buf ++
      "type Config struct \x7b\n" ++
      "    v1.TypeMeta   `json:\",inline\"`\n" ++
      "    v1.ObjectMeta `json:\"metadata,omitempty\"`\n" ++
      "    Spec              ConfigSpec `json:\"spec,omitempty\"`\n" ++
      "\x7d\n\n" ++
      "type ConfigSpec struct \x7b\n" }
    let q := emitParamFieldsSorted yp st1 (sortStrs (keysOf n.child)) n.child
    let st2 := { q.1 with buf := q.1.buf ++ "\x7d\n\n" }
    let r := writeStructChildren yp st2 q.2
    (r.1, n.withChild r.2)

/-- The enum-emission loop at the end of `Generate`:
`for _, c := range root.Child { if len(c.Enums) > 0 { g.writeEnum(c) } }`. -/
def writeEnumsTop (st : GenSt) :
    List (String × Node) → GenSt × List (String × Node)
  | [] => (st, [])
  | (k, c) :: rest =>
    let p := if c.enums.isEmpty = false then writeEnum st c else (st, c)
    let q := writeEnumsTop p.1 rest
    (q.1, (k, p.2) :: q.2)

/-- Contribution of one child binding to the `g.def` set: a non-empty key
whose node has children contributes the key and its camelled form. -/
def defsContrib (e : String × Node) : List String :=
  if e.1 ≠ "" ∧ e.2.child.isEmpty = false then [e.1, camel e.1] else []

/-- The `g.def` collection walk of `Generate`.  The Go walk visits every
node depth-first and inserts each qualifying child binding into a map used
as a set; only membership is ever queried, so the visit list is assembled
per visited node. -/
def collectDefs (root : Node) : List String :=
  (allNodes root).flatMap (fun n => n.child.flatMap defsContrib)

/-- One line of the import block. -/
def impLine (imp : List (String × String)) (p : String) : String :=
  match imp.lookup p with
  | some a =>
    if a ≠ "" then "    " ++ a ++ " \"" ++ p ++ "\"\n"
    else "    \"" ++ p ++ "\"\n"
  | none => ""

/-- The import block `Generate` splices in after the `package` line. -/
def impBlock (imp : List (String × String)) : String :=
  "import (\n" ++ String.join ((sortStrs (imp.map Prod.fst)).map (impLine imp)) ++
    ")\n\n"

/-- `gen.Generate` of the JSDoc openapi package.  On a graph with undefined
type references it returns the hard error and emits nothing.  Otherwise it
returns the generated source bytes before `format.Source` (an external
tool), together with the mutated graph.  The Go code writes the file header
into the buffer first and later splices the import block in after the
`package` line with `strings.Replace`; the model assembles the identical
final byte string directly. -/
def Generate (yp : String → Option Yaml) (pkg : String) (root : Node) :
    Except String (String × Node) :=
  if (CollectUndefined root).isEmpty = false then
    .error ("undefined types: " ++ strJoin ", " (CollectUndefined root))
  else
    let st0 : GenSt := ⟨"", [], [], collectDefs root⟩
    let p := writeStructRoot yp st0 root
    let q := writeEnumsTop p.1 p.2.child
    let root2 := p.2.withChild q.2
    let src :=
      "// +kubebuilder:object:generate=true\n" ++
      "// +kubebuilder:object:root=true\n" ++
      "// +groupName=values.helm.io\n\n" ++
      "// +versionName=v1alpha1\n\n" ++
      "// Code generated by values-gen. DO NOT EDIT.\n" ++
      "package " ++ pkg ++ "\n\n" ++
      (if q.1.imp.isEmpty = false then impBlock q.1.imp else "") ++ q.1.buf
    .ok (src, root2)

/-! #### C1: `CollectUndefined` characterization -/

theorem mem_collectRef (root : Node) (t : String) :
    t ∈ collectRef root ↔
      ∃ n ∈ allNodes root, refCond (baseOf n.typeExpr) ∧ baseOf n.typeExpr = t := by
  rw [collectRef, List.mem_flatMap]
  constructor
  · rintro ⟨n, hn, htn⟩
    rw [refContrib] at htn
    by_cases hc : refCond (baseOf n.typeExpr)
    · rw [if_pos hc] at htn
      exact ⟨n, hn, hc, (List.mem_singleton.mp htn).symm⟩
    · rw [if_neg hc] at htn
      cases htn
  · rintro ⟨n, hn, hc, hbt⟩
    exact ⟨n, hn, by rw [refContrib, if_pos hc, hbt]; exact List.mem_singleton.mpr rfl⟩

theorem mem_collectDef (root : Node) (t : String) :
    t ∈ collectDef root ↔
      ∃ m ∈ descendants root, defCond m ∧ strTrimPref m.name "*" = t := by
  rw [collectDef, List.mem_flatMap]
  constructor
  · rintro ⟨m, hm, htm⟩
    rw [defContrib] at htm
    by_cases hc : defCond m
    · rw [if_pos hc] at htm
      exact ⟨m, hm, hc, (List.mem_singleton.mp htm).symm⟩
    · rw [if_neg hc] at htm
      cases htm
  · rintro ⟨m, hm, hc, hmt⟩
    exact ⟨m, hm, by rw [defContrib, if_pos hc, hmt]; exact List.mem_singleton.mpr rfl⟩

/-- **C1 (amended).**  `CollectUndefined` returns, sorted and without
duplicates, exactly the names that appear as the base of some node's type
expression — after stripping a pointer marker, one array prefix and one map
prefix, and excluding primitives, string-format aliases, the semantic
aliases (`quantity`/`duration`/`time`/`object`/`emptyobject`), the keyword
`struct`, the reserved words `resources`/`request`/`limit`, and residual
`[]`/`map[`-prefixed expressions — such that no node of the graph with that
name (after stripping a pointer marker) has children or enum values; and
`Generate` returns the non-empty list as a hard error, emitting nothing. -/
theorem collectUndefined_characterization (root : Node) :
    (CollectUndefined root).Sorted strLeP ∧
    (CollectUndefined root).Nodup ∧
    (∀ t, t ∈ CollectUndefined root ↔
      specReferenced root t ∧ ¬ specDefined root t) ∧
    (CollectUndefined root ≠ [] → ∀ yp pkg, Generate yp pkg root =
      .error ("undefined types: " ++ strJoin ", " (CollectUndefined root))) := by
  refine ⟨sortStrs_sorted _, ?_, ?_, ?_⟩
  · exact ((sortStrs_perm _).nodup_iff).mpr ((List.nodup_dedup _).filter _)
  · intro t
    constructor
    · intro ht
      have ht1 := (sortStrs_perm _).mem_iff.mp ht
      rw [List.mem_filter] at ht1
      obtain ⟨ht2, ht3⟩ := ht1
      rw [List.mem_dedup] at ht2
      simp only [decide_eq_true_eq] at ht3
      obtain ⟨n, hn, hc, hbt⟩ := (mem_collectRef root t).mp ht2
      have hrc : refCond t := hbt ▸ hc
      obtain ⟨h1, h2, h3, h4, h5, h6, h7, h8, h9, h10⟩ := hrc
      refine ⟨⟨h1, (refCond_iff_not_claimExcluded t h1).mp (hbt ▸ hc), n, hn, hbt⟩, ?_⟩
      rintro ⟨m, hm, hname, hce⟩
      have hdc : defCond m := by
        unfold defCond
        rw [hname]
        exact ⟨h1, h2, h3, h4, h8, h9, h10, hce⟩
      have hmem2 : t ∈ collectDef root := (mem_collectDef root t).mpr ⟨m, hm, hdc, hname⟩
      have hcon : (collectDef root).contains t = true := by simpa using hmem2
      rw [ht3] at hcon
      exact Bool.noConfusion hcon
    · rintro ⟨⟨htne, hnex, n, hn, hbt⟩, hnd⟩
      have hrc : refCond t := (refCond_iff_not_claimExcluded t htne).mpr hnex
      have hmem : t ∈ collectRef root :=
        (mem_collectRef root t).mpr ⟨n, hn, hbt ▸ hrc, hbt⟩
      have hnotdef : (collectDef root).contains t = false := by
        by_contra h
        rw [Bool.not_eq_false] at h
        have h2 : t ∈ collectDef root := by simpa using h
        obtain ⟨m, hm, hdc, hmt⟩ := (mem_collectDef root t).mp h2
        obtain ⟨d1, d2, d3, d4, d5, d6, d7, d8⟩ := hdc
        exact hnd ⟨m, hm, hmt, d8⟩
      apply (sortStrs_perm _).mem_iff.mpr
      rw [List.mem_filter]
      refine ⟨List.mem_dedup.mpr hmem, by simp only [decide_eq_true_eq]; exact hnotdef⟩
  · intro hne yp pkg
    have he : (CollectUndefined root).isEmpty = false := by
      cases h : CollectUndefined root with
      | nil => exact absurd h hne
      | cons a l => rfl
    rw [Generate, if_pos he]

/-- A graph containing a typedef node (whose `TypeExpr` is the keyword
`struct`) and a parameter of the semantic-alias type `quantity`. -/
def c1graph : Node :=
  .mk "Config" false "" [] "" "" false
    [("Backup", .mk "Backup" false "struct" [] "" "" false
        [("enabled", .mk "enabled" false "bool" [] "" "" false [])]),
     ("size", .mk "size" true "quantity" [] "" "" false [])]

/-- **C1 counterexample.**  Per the claim's own exclusion list (primitives,
string-format aliases, object/emptyobject, resources/request/limit), the
bases `struct` and `quantity` of this graph's type expressions are
referenced, not excluded, and defined by no node, so the claim requires
`CollectUndefined` to return them; the code returns the empty list (it
additionally excludes the keyword `struct` and the semantic aliases
`quantity`/`duration`/`time`). -/
theorem collectUndefined_claim_counterexample :
    CollectUndefined c1graph = [] ∧
    ("struct" ≠ "" ∧ ¬ claimExcludedOrig "struct" ∧
      ∃ n ∈ allNodes c1graph, baseOf n.typeExpr = "struct") ∧
    ("quantity" ≠ "" ∧ ¬ claimExcludedOrig "quantity" ∧
      ∃ n ∈ allNodes c1graph, baseOf n.typeExpr = "quantity") ∧
    ¬ specDefined c1graph "struct" ∧ ¬ specDefined c1graph "quantity" := by
  refine ⟨by decide, by decide, by decide, ?_, ?_⟩
  · unfold specDefined
    decide
  · unfold specDefined
    decide

/-- A graph referencing the undefined type `Foo`. -/
def c1bad : Node :=
  .mk "Config" false "" [] "" "" false
    [("p", .mk "p" true "Foo" [] "" "" false []),
     ("Foo", .mk "Foo" false "" [] "" "" false [])]

/-- A `yamlParse` stand-in that models a parse failure everywhere. -/
def ypNone : String → Option Yaml := fun _ => none

/-- Witness for the amended C1: on `c1bad` the undefined list is `[Foo]`
and `Generate` hard-errors without emitting declarations. -/
theorem collectUndefined_characterization_witness :
    Generate ypNone "values" c1bad = .error "undefined types: Foo" := by
  have h := (collectUndefined_characterization c1bad).2.2.2
  have he : CollectUndefined c1bad = ["Foo"] := by decide
  have h2 := h (by rw [he]; exact fun hx => List.noConfusion hx) ypNone "values"
  rw [he] at h2
  exact h2

/-! #### C6: the reserved words resources/request/limit -/

theorem mem_collectDefs (root : Node) (t : String) :
    t ∈ collectDefs root ↔
      ∃ n ∈ allNodes root, ∃ e ∈ n.child,
        (e.1 ≠ "" ∧ e.2.child.isEmpty = false) ∧ (t = e.1 ∨ t = camel e.1) := by
  rw [collectDefs, List.mem_flatMap]
  constructor
  · rintro ⟨n, hn, ht⟩
    rw [List.mem_flatMap] at ht
    obtain ⟨e, he, hte⟩ := ht
    rw [defsContrib] at hte
    by_cases hc : e.1 ≠ "" ∧ e.2.child.isEmpty = false
    · rw [if_pos hc] at hte
      rw [List.mem_cons, List.mem_singleton] at hte
      rcases hte with hte | hte
      · exact ⟨n, hn, e, he, hc, Or.inl hte⟩
      · exact ⟨n, hn, e, he, hc, Or.inr hte⟩
    · rw [if_neg hc] at hte
      cases hte
  · rintro ⟨n, hn, e, he, hc, hte⟩
    refine ⟨n, hn, ?_⟩
    rw [List.mem_flatMap]
    refine ⟨e, he, ?_⟩
    rw [defsContrib, if_pos hc]
    rcases hte with hte | hte
    · exact hte ▸ List.mem_cons_self _ _
    · rw [hte]
      exact List.mem_cons.mpr (Or.inr (List.mem_cons_self _ _))

theorem resolve_reserved_eval (st : GenSt) (w : String)
    (h1 : strTrim w = w) (h2 : isStringFormat w = false)
    (h3 : strHasPref w "[]" = false)
    (h4 : (strHasPref w "map[" && strContainsRBracket w) = false)
    (h5 : w ≠ "") (hq : w ≠ "quantity") (hd : w ≠ "duration") (ht : w ≠ "time")
    (ho : w ≠ "object")
    (hw : w = "resources" ∨ w = "request" ∨ w = "limit")
    (hrn : renameConfig (camel w) = camel w) :
    (resolve st w).2 =
      if st.defs.contains w ∨ st.defs.contains (camel w) then camel w
      else "k8sRuntime.RawExtension" := by
  rw [resolve]
  simp only [h1]
  rw [if_neg h5, if_neg (by simp [h2]), if_neg (by simp [h3]),
    if_neg (by simp [h4]), if_neg hq, if_neg hd, if_neg ht, if_neg ho,
    if_pos hw, hrn]
  split_ifs <;> rfl

/-- **C6.**  Resolving one of the bare words `resources`/`request`/`limit`
yields the camelled user type exactly when the `def` set contains the word
or its camelled form (the `Config`/`ConfigSpec` rename is vacuous for these
words), and otherwise the free-form `k8sRuntime.RawExtension`; the `def`
set built by `Generate` contains a name exactly when some child binding of
the graph with a non-empty key and a node with children matches it or its
camelled form; and no other bare word gets this fallback — for any other
unprefixed word the resolved text is independent of the generator state
(in particular of the `def` set). -/
theorem resolve_reserved_fallback :
    (∀ (st : GenSt) (w : String), (w = "resources" ∨ w = "request" ∨ w = "limit") →
      (resolve st w).2 =
        (if st.defs.contains w ∨ st.defs.contains (camel w) then camel w
         else "k8sRuntime.RawExtension") ∧
      camel w ≠ "Config" ∧ camel w ≠ "ConfigSpec") ∧
    (∀ (root : Node) (t : String), t ∈ collectDefs root ↔
      ∃ n ∈ allNodes root, ∃ e ∈ n.child,
        (e.1 ≠ "" ∧ e.2.child.isEmpty = false) ∧ (t = e.1 ∨ t = camel e.1)) ∧
    (∀ (st st' : GenSt) (raw : String),
      ¬ (strTrim raw = "resources" ∨ strTrim raw = "request" ∨ strTrim raw = "limit") →
      strHasPref (strTrim raw) "[]" = false →
      (strHasPref (strTrim raw) "map[" && strContainsRBracket (strTrim raw)) = false →
      (resolve st raw).2 = (resolve st' raw).2) := by
  refine ⟨?_, mem_collectDefs, ?_⟩
  · intro st w hw
    refine ⟨?_, ?_, ?_⟩
    · rcases hw with rfl | rfl | rfl <;>
        exact resolve_reserved_eval st _ (by decide) (by decide) (by decide)
          (by decide) (by decide) (by decide) (by decide) (by decide) (by decide)
          (by decide) (by decide)
    · rcases hw with rfl | rfl | rfl <;> decide
    · rcases hw with rfl | rfl | rfl <;> decide
  · intro st st' raw hno hsl hmap
    conv_lhs => rw [resolve]
    conv_rhs => rw [resolve]
    simp only []
    have d3 : ¬ strHasPref (strTrim raw) "[]" = true := by simp [hsl]
    have d4 : ¬ (strHasPref (strTrim raw) "map[" &&
      strContainsRBracket (strTrim raw)) = true := by simp [hmap]
    by_cases c1 : strTrim raw = ""
    · rw [if_pos c1, if_pos c1]
    rw [if_neg c1, if_neg c1]
    by_cases c2 : isStringFormat (strTrim raw) = true
    · rw [if_pos c2, if_pos c2]
    rw [if_neg c2, if_neg c2]
    rw [if_neg d3, if_neg d3, if_neg d4, if_neg d4]
    by_cases c5 : strTrim raw = "quantity"
    · rw [if_pos c5, if_pos c5]
    rw [if_neg c5, if_neg c5]
    by_cases c6 : strTrim raw = "duration"
    · rw [if_pos c6, if_pos c6]
    rw [if_neg c6, if_neg c6]
    by_cases c7 : strTrim raw = "time"
    · rw [if_pos c7, if_pos c7]
    rw [if_neg c7, if_neg c7]
    by_cases c8 : strTrim raw = "object"
    · rw [if_pos c8, if_pos c8]
    rw [if_neg c8, if_neg c8, if_neg hno, if_neg hno]
    by_cases c10 : isPrimitive (strTrim raw) = true ∨ strTrim raw = "any"
    · rw [if_pos c10, if_pos c10]
    rw [if_neg c10, if_neg c10]
    cases hq : lastDotSplit (strTrim raw) <;> simp only [hq]

/-- Witness for C6: with `resources` declared in the `def` set the word
resolves to the user type `Resources`; with an empty `def` set it falls
back to `k8sRuntime.RawExtension`; and resolving the unrelated bare word
`foo` ignores the generator state entirely. -/
theorem resolve_reserved_fallback_witness :
    ((resolve ⟨"", [], [], ["resources"]⟩ "resources").2 =
      (if (["resources"] : List String).contains "resources" ∨
          (["resources"] : List String).contains (camel "resources") then
        camel "resources"
       else "k8sRuntime.RawExtension")) ∧
    ((resolve ⟨"", [], [], []⟩ "resources").2 =
      (if ([] : List String).contains "resources" ∨
          ([] : List String).contains (camel "resources") then
        camel "resources"
       else "k8sRuntime.RawExtension")) ∧
    ((resolve ⟨"", [], [], []⟩ "foo").2 =
      (resolve ⟨"buf", [("p", "a")], ["f"], ["foo", "resources"]⟩ "foo").2) :=
  ⟨(resolve_reserved_fallback.1 ⟨"", [], [], ["resources"]⟩ "resources" (Or.inl rfl)).1,
   (resolve_reserved_fallback.1 ⟨"", [], [], []⟩ "resources" (Or.inl rfl)).1,
   resolve_reserved_fallback.2.2 ⟨"", [], [], []⟩ ⟨"buf", [("p", "a")], ["f"], ["foo", "resources"]⟩
     "foo" (by decide) (by decide) (by decide)⟩

/-! #### C8: determinism of the struct emitter -/

mutual

/-- The canonical (map-equality) form of a graph: children sorted by key,
recursively.  Two graphs are equal as Go map structures exactly when their
canonical forms are equal. -/
def canonical : Node → Node
  | .mk a b c d e f g ch => .mk a b c d e f g (sortByKey (canonicalList ch))

def canonicalList : List (String × Node) → List (String × Node)
  | [] => []
  | (k, c) :: rest => (k, canonical c) :: canonicalList rest

end

def c8leafX : Node := .mk "x" false "" [] "" "" false []

def c8leafY : Node := .mk "y" false "" [] "" "" false []

def c8A : Node := .mk "alpha" true "" [] "" "" false [("x", c8leafX)]

def c8B : Node := .mk "beta" true "" [] "" "" false [("y", c8leafY)]

/-- Two structurally equal graphs (equal as maps) whose child lists carry
different insertion orders. -/
def c8g1 : Node := .mk "Config" false "" [] "" "" false [("alpha", c8A), ("beta", c8B)]

def c8g2 : Node := .mk "Config" false "" [] "" "" false [("beta", c8B), ("alpha", c8A)]

theorem sortStrs_eq_of_perm {l1 l2 : List String} (h : List.Perm l1 l2) :
    sortStrs l1 = sortStrs l2 :=
  List.eq_of_perm_of_sorted
    ((sortStrs_perm l1).trans (h.trans (sortStrs_perm l2).symm))
    (sortStrs_sorted l1) (sortStrs_sorted l2)

theorem lookupChild_replaceChild (cs : List (String × Node)) (k j : String)
    (c' : Node) :
    lookupChild (replaceChild cs k c') j =
      if j = k then (lookupChild cs k).map (fun _ => c') else lookupChild cs j := by
  induction cs with
  | nil =>
    simp only [replaceChild, lookupChild]
    split <;> rfl
  | cons p rest ih =>
    obtain ⟨key, n⟩ := p
    by_cases hk : key = k
    · subst hk
      by_cases hj : key = j
      · subst hj
        simp [replaceChild, lookupChild]
      · have hjk : ¬j = key := fun h => hj h.symm
        simp [replaceChild, lookupChild, hj, hjk]
    · by_cases hj : key = j
      · subst hj
        have hjk : ¬key = k := hk
        simp [replaceChild, lookupChild, hk, hjk]
      · simp [replaceChild, lookupChild, hk, hj, ih]

theorem emitFieldsSorted_congr (yp : String → Option Yaml) :
    ∀ (keys : List String) (st : GenSt) (cs1 cs2 : List (String × Node)),
    (∀ k, lookupChild cs1 k = lookupChild cs2 k) →
    (emitFieldsSorted yp st keys cs1).1 = (emitFieldsSorted yp st keys cs2).1 := by
  intro keys
  induction keys with
  | nil => intro st cs1 cs2 h; rfl
  | cons k rest ih =>
    intro st cs1 cs2 h
    rw [emitFieldsSorted, emitFieldsSorted, h k]
    cases hl : lookupChild cs2 k with
    | none => exact ih st cs1 cs2 h
    | some c =>
      simp only []
      apply ih
      intro j
      rw [lookupChild_replaceChild, lookupChild_replaceChild, h k, h j]

theorem emitParamFieldsSorted_congr (yp : String → Option Yaml) :
    ∀ (keys : List String) (st : GenSt) (cs1 cs2 : List (String × Node)),
    (∀ k, lookupChild cs1 k = lookupChild cs2 k) →
    (emitParamFieldsSorted yp st keys cs1).1 =
      (emitParamFieldsSorted yp st keys cs2).1 := by
  intro keys
  induction keys with
  | nil => intro st cs1 cs2 h; rfl
  | cons k rest ih =>
    intro st cs1 cs2 h
    rw [emitParamFieldsSorted, emitParamFieldsSorted, h k]
    cases hl : lookupChild cs2 k with
    | none => exact ih st cs1 cs2 h
    | some c =>
      by_cases hp : c.isParam = true
      · simp only [hp, if_pos]
        apply ih
        intro j
        rw [lookupChild_replaceChild, lookupChild_replaceChild, h k, h j]
      · simp only [hp]
        exact ih st cs1 cs2 h

set_option maxRecDepth 10000 in
/-- C8 counterexample: two graphs that are equal as Go map structures
(identical canonical forms) but whose child lists carry different insertion
orders make the struct emitter produce different output bytes, because the
`for _, c := range n.Child { g.writeStruct(c) }` recursion of `writeStruct`
emits the nested struct declarations in map-iteration order, not in sorted
order.  Only the field lines inside each declaration are sorted. -/
theorem struct_emitter_insertion_order_counterexample :
    canonical c8g1 = canonical c8g2 ∧
    (writeStructRoot ypNone ⟨"", [], [], []⟩ c8g1).1.buf ≠
    (writeStructRoot ypNone ⟨"", [], [], []⟩ c8g2).1.buf := by
  constructor
  · rfl
  · simp [writeStructRoot, writeStructChildren, writeStruct, emitParamFieldsSorted,
      emitFieldsSorted, emitField, goType, quoteEnums, quoteEnumsList, jsonTag,
      addImp, addImpAlias, renameConfig, camel, camelChars, keysOf, sortStrs,
      insortStr, strLe, chleb, lookupChild, replaceChild, strHasPref, strTrim,
      strTrimPref, strDrop, isStringFormat, Openapi.isStringFormat,
      Openapi.stringFormats, Node.withChild, Node.withEnums, Node.name,
      Node.isParam, Node.typeExpr, Node.enums, Node.defaultVal, Node.comment,
      Node.omitEmpty, Node.child, c8g1, c8g2, c8A, c8B, c8leafX, c8leafY,
      ypNone, strJoin, goQuote, goQuoteChar]

/-- C8 (amended): the fields of each struct declaration are rendered in
sorted-name order independently of the child map's insertion order — for two
child lists representing the same map (pointwise-equal lookups, permuted key
lists), both the root parameter loop and the non-root field loop of
`writeStruct` produce identical generator states, hence identical output
bytes.  The recursion into child structs, by contrast, follows map-iteration
order, so whole-output determinism fails (see the counterexample). -/
theorem writeStruct_field_order_deterministic (yp : String → Option Yaml)
    (st : GenSt) (cs1 cs2 : List (String × Node))
    (h : ∀ k, lookupChild cs1 k = lookupChild cs2 k)
    (hp : List.Perm (keysOf cs1) (keysOf cs2)) :
    (emitFieldsSorted yp st (sortStrs (keysOf cs1)) cs1).1 =
      (emitFieldsSorted yp st (sortStrs (keysOf cs2)) cs2).1 ∧
    (emitParamFieldsSorted yp st (sortStrs (keysOf cs1)) cs1).1 =
      (emitParamFieldsSorted yp st (sortStrs (keysOf cs2)) cs2).1 := by
  rw [sortStrs_eq_of_perm hp]
  exact ⟨emitFieldsSorted_congr yp _ st cs1 cs2 h,
    emitParamFieldsSorted_congr yp _ st cs1 cs2 h⟩

theorem writeStruct_field_order_deterministic_witness :
    (emitFieldsSorted ypNone ⟨"", [], [], []⟩
        (sortStrs (keysOf [("beta", c8B), ("alpha", c8A)]))
        [("beta", c8B), ("alpha", c8A)]).1 =
      (emitFieldsSorted ypNone ⟨"", [], [], []⟩
        (sortStrs (keysOf [("alpha", c8A), ("beta", c8B)]))
        [("alpha", c8A), ("beta", c8B)]).1 :=
  (writeStruct_field_order_deterministic ypNone ⟨"", [], [], []⟩
    [("beta", c8B), ("alpha", c8A)] [("alpha", c8A), ("beta", c8B)]
    (by
      intro k
      by_cases h1 : "beta" = k
      · subst h1
        rfl
      · by_cases h2 : "alpha" = k
        · subst h2
          rfl
        · simp [lookupChild, h1, h2])
    (by
      have : keysOf [("beta", c8B), ("alpha", c8A)] = ["beta", "alpha"] := rfl
      rw [this]
      have : keysOf [("alpha", c8A), ("beta", c8B)] = ["alpha", "beta"] := rfl
      rw [this]
      exact List.Perm.swap "alpha" "beta" [])).1

/-! #### C9: `quoteEnums` mutates the graph through `Generate` -/

theorem Node.name_withChild (n : Node) (cs : List (String × Node)) :
    (Node.withChild n cs).name = n.name := by cases n; rfl

theorem Node.isParam_withChild (n : Node) (cs : List (String × Node)) :
    (Node.withChild n cs).isParam = n.isParam := by cases n; rfl

theorem Node.enums_withChild (n : Node) (cs : List (String × Node)) :
    (Node.withChild n cs).enums = n.enums := by cases n; rfl

theorem Node.enums_withEnums (n : Node) (en : List String) :
    (Node.withEnums n en).enums = en := by cases n; rfl

theorem Node.isParam_withEnums (n : Node) (en : List String) :
    (Node.withEnums n en).isParam = n.isParam := by cases n; rfl

theorem Node.name_withEnums (n : Node) (en : List String) :
    (Node.withEnums n en).name = n.name := by cases n; rfl

theorem quoteEnumsList_isEmpty (l : List String) :
    (quoteEnumsList l).isEmpty = l.isEmpty := by
  cases l <;> rfl

/-- `writeStruct` never touches the scalar fields of the node it is called
on: it only appends to the buffer and rebuilds the child list. -/
theorem writeStruct_scalars (yp : String → Option Yaml) (st : GenSt) (n : Node) :
    (writeStruct yp st n).2.name = n.name ∧
    (writeStruct yp st n).2.isParam = n.isParam ∧
    (writeStruct yp st n).2.enums = n.enums := by
  rw [writeStruct]
  split
  · exact ⟨rfl, rfl, rfl⟩
  · split
    · exact ⟨rfl, rfl, rfl⟩
    · exact ⟨Node.name_withChild _ _, Node.isParam_withChild _ _,
        Node.enums_withChild _ _⟩

/-- The struct-recursion loop keeps every binding's key and the bound node's
scalar fields. -/
theorem lookupChild_writeStructChildren (yp : String → Option Yaml) :
    ∀ (cs : List (String × Node)) (st : GenSt) (w : String) (c : Node),
    lookupChild cs w = some c →
    ∃ m, lookupChild (writeStructChildren yp st cs).2 w = some m ∧
      m.name = c.name ∧ m.isParam = c.isParam ∧ m.enums = c.enums := by
  intro cs
  induction cs with
  | nil => intro st w c h; cases h
  | cons p rest ih =>
    obtain ⟨k, c0⟩ := p
    intro st w c h
    rw [writeStructChildren]
    by_cases hk : k = w
    · rw [lookupChild, if_pos hk] at h
      injection h with hc
      subst hc
      refine ⟨(writeStruct yp st c0).2, ?_, (writeStruct_scalars yp st c0).1,
        (writeStruct_scalars yp st c0).2.1, (writeStruct_scalars yp st c0).2.2⟩
      simp only [lookupChild, if_pos hk]
    · rw [lookupChild, if_neg hk] at h
      obtain ⟨m, hm, hns⟩ := ih (writeStruct yp st c0).1 w c h
      exact ⟨m, by simp only [lookupChild, if_neg hk]; exact hm, hns⟩

/-- The root parameter loop leaves non-parameter children untouched
(`if !c.IsParam { continue }`). -/
theorem lookupChild_emitParamFieldsSorted (yp : String → Option Yaml) :
    ∀ (keys : List String) (st : GenSt) (cs : List (String × Node))
      (w : String) (c : Node),
    lookupChild cs w = some c → c.isParam = false →
    lookupChild (emitParamFieldsSorted yp st keys cs).2 w = some c := by
  intro keys
  induction keys with
  | nil => intro st cs w c h hp; exact h
  | cons k rest ih =>
    intro st cs w c h hp
    rw [emitParamFieldsSorted]
    cases hl : lookupChild cs k with
    | none => exact ih st cs w c h hp
    | some c1 =>
      by_cases hq : c1.isParam = true
      · simp only [hq, if_pos]
        refine ih _ _ w c ?_ hp
        rw [lookupChild_replaceChild, if_neg]
        · exact h
        · intro hwk
          rw [hwk] at h
          rw [h] at hl
          obtain rfl : c = c1 := Option.some.inj hl
          rw [hp] at hq
          exact Bool.noConfusion hq
      · simp only [hq]
        exact ih st cs w c h hp

/-- The enum loop at the end of `Generate` rewrites every enum-bearing root
child's enum slice to its quoted form (through `writeEnum`'s call to
`quoteEnums`). -/
theorem lookupChild_writeEnumsTop :
    ∀ (cs : List (String × Node)) (st : GenSt) (w : String) (c : Node),
    lookupChild cs w = some c →
    lookupChild (writeEnumsTop st cs).2 w =
      some (if c.enums.isEmpty = false
        then Node.withEnums c (quoteEnumsList c.enums) else c) := by
  intro cs
  induction cs with
  | nil => intro st w c h; cases h
  | cons p rest ih =>
    obtain ⟨k, c0⟩ := p
    intro st w c h
    rw [writeEnumsTop]
    by_cases hk : k = w
    · rw [lookupChild, if_pos hk] at h
      injection h with hc
      subst hc
      simp only [lookupChild, if_pos hk]
      by_cases he : c0.enums.isEmpty = false
      · rw [if_pos he, if_pos he, writeEnum]
        rw [if_neg (by rw [he]; exact Bool.noConfusion)]
      · rw [if_neg he, if_neg he]
    · rw [lookupChild, if_neg hk] at h
      simp only [lookupChild, if_neg hk]
      exact ih _ w c h

/-- The root branch of the struct emitter: the root keeps its name, and a
non-parameter root child keeps its scalar fields (only the buffer and the
nested children change). -/
theorem lookupChild_writeStructRoot (yp : String → Option Yaml) (st : GenSt)
    (n : Node) (w : String) (c : Node)
    (hb1 : strHasPref n.name "[]" = false)
    (hb2 : strHasPref n.name "map[" = false)
    (hw : lookupChild n.child w = some c) (hp : c.isParam = false) :
    (writeStructRoot yp st n).2.name = n.name ∧
    ∃ m, lookupChild (writeStructRoot yp st n).2.child w = some m ∧
      m.name = c.name ∧ m.isParam = c.isParam ∧ m.enums = c.enums := by
  rw [writeStructRoot]
  rw [if_neg (by rw [hb1, hb2]; rintro (h | h) <;> exact Bool.noConfusion h)]
  simp only [Node.name_withChild, Node.child_withChild]
  refine ⟨trivial, ?_⟩
  exact lookupChild_writeStructChildren yp _ _ w c
    (lookupChild_emitParamFieldsSorted yp _ _ _ w c hw hp)

/-- One successful `Generate` call: a non-parameter root child `w` with a
non-empty enum slice comes back with its name preserved and its enum slice
rewritten element-wise to the double-quoted members, and the root keeps its
name. -/
theorem generate_ok_child (yp : String → Option Yaml) (pkg : String)
    (root root2 : Node) (src : String) (w : String) (c : Node)
    (hb1 : strHasPref root.name "[]" = false)
    (hb2 : strHasPref root.name "map[" = false)
    (hw : lookupChild root.child w = some c)
    (hp : c.isParam = false)
    (he : c.enums.isEmpty = false)
    (h1 : Generate yp pkg root = .ok (src, root2)) :
    root2.name = root.name ∧
    ∃ c2, lookupChild root2.child w = some c2 ∧
      c2.enums = quoteEnumsList c.enums ∧ c2.isParam = false := by
  rw [Generate] at h1
  by_cases hcu : (CollectUndefined root).isEmpty = false
  · rw [if_pos hcu] at h1
    exact Except.noConfusion h1
  · rw [if_neg hcu] at h1
    simp only [Except.ok.injEq, Prod.mk.injEq] at h1
    obtain ⟨hs, hr⟩ := h1
    subst hr
    obtain ⟨hname, m, hm, hmn, hmp, hme⟩ :=
      lookupChild_writeStructRoot yp ⟨"", [], [], collectDefs root⟩ root w c
        hb1 hb2 hw hp
    have hwe := lookupChild_writeEnumsTop
      (writeStructRoot yp ⟨"", [], [], collectDefs root⟩ root).2.child
      (writeStructRoot yp ⟨"", [], [], collectDefs root⟩ root).1 w m hm
    rw [hme, he, if_pos rfl] at hwe
    refine ⟨?_, Node.withEnums m (quoteEnumsList c.enums), ?_, ?_, ?_⟩
    · rw [Node.name_withChild]
      exact hname
    · rw [Node.child_withChild]
      exact hwe
    · rw [Node.enums_withEnums]
    · rw [Node.isParam_withEnums, hmp, hp]

/-- C9 (amended): `Generate` mutates its input graph through `quoteEnums`.
A non-parameter root child with enum values comes out of one `Generate` call
with its enum slice rewritten to the double-quoted members, and out of a
second call doubly quoted — so the second call's enum validation markers
carry doubly-quoted members.  (Nodes the emitter never visits — e.g. below a
`[]`-named node — keep their raw enums: see the counterexample.) -/
theorem generate_requotes_enums (yp : String → Option Yaml) (pkg : String)
    (root root2 root3 : Node) (src1 src2 : String) (w : String) (c : Node)
    (hb1 : strHasPref root.name "[]" = false)
    (hb2 : strHasPref root.name "map[" = false)
    (hw : lookupChild root.child w = some c)
    (hp : c.isParam = false)
    (he : c.enums.isEmpty = false)
    (h1 : Generate yp pkg root = .ok (src1, root2))
    (h2 : Generate yp pkg root2 = .ok (src2, root3)) :
    (∃ c2, lookupChild root2.child w = some c2 ∧
       c2.enums = quoteEnumsList c.enums) ∧
    (∃ c3, lookupChild root3.child w = some c3 ∧
       c3.enums = quoteEnumsList (quoteEnumsList c.enums)) := by
  obtain ⟨hname, c2, hc2, hc2e, hc2p⟩ :=
    generate_ok_child yp pkg root root2 src1 w c hb1 hb2 hw hp he h1
  have hb1' : strHasPref root2.name "[]" = false := by rw [hname]; exact hb1
  have hb2' : strHasPref root2.name "map[" = false := by rw [hname]; exact hb2
  have he2 : c2.enums.isEmpty = false := by
    rw [hc2e, quoteEnumsList_isEmpty]
    exact he
  obtain ⟨hname2, c3, hc3, hc3e, hc3p⟩ :=
    generate_ok_child yp pkg root2 root3 src2 w c2 hb1' hb2' hc2 hc2p he2 h2
  exact ⟨⟨c2, hc2, hc2e⟩, ⟨c3, hc3, by rw [hc3e, hc2e]⟩⟩

/-- An enum-bearing node two levels below a `[]`-named array node: the
emitter never reaches it. -/
def c9C : Node := .mk "x" false "" ["a"] "" "" false []

def c9B : Node := .mk "[]" false "" [] "" "" false [("x", c9C)]

def c9A : Node := .mk "arr" true "" [] "" "" false [("[]", c9B)]

def c9g : Node := .mk "Config" false "" [] "" "" false [("arr", c9A)]

set_option maxRecDepth 10000 in
/-- C9 counterexample: "after one Generate call every enum-bearing node's
Enums contain quoted strings" fails — `writeStruct` returns early on a
`[]`-named node without recursing, so an enum-bearing node below it keeps
its raw (unquoted) enum members after a successful `Generate`. -/
theorem generate_enum_mutation_counterexample :
    Except.map (fun p => (findPath p.2 ["arr", "[]", "x"]).map Node.enums)
        (Generate ypNone "values" c9g) = .ok (some ["a"]) ∧
    quoteEnumsList ["a"] ≠ ["a"] := by
  constructor
  · simp [Generate, CollectUndefined, collectRef, collectDef, refContrib,
      defContrib, refCond, defCond, baseOf, allNodes, allNodesList, descendants,
      collectDefs, defsContrib, sortStrs, insortStr, strLe, chleb,
      writeStructRoot, writeStructChildren, writeStruct, emitParamFieldsSorted,
      emitFieldsSorted, emitField, goType, quoteEnums, quoteEnumsList, jsonTag,
      addImp, addImpAlias, renameConfig, camel, camelChars, keysOf, lookupChild,
      replaceChild, strHasPref, strTrim, strTrimPref, strDrop, isStringFormat,
      Openapi.isStringFormat, Openapi.stringFormats, isPrimitive,
      Openapi.isPrimitive, Node.withChild, Node.withEnums, Node.name,
      Node.isParam, Node.typeExpr, Node.enums, Node.defaultVal, Node.comment,
      Node.omitEmpty, Node.child, c9g, c9A, c9B, c9C, ypNone, strJoin, goQuote,
      goQuoteChar, writeEnumsTop, writeEnum, impBlock, impLine, findPath,
      Except.map, strContainsSub, dropThroughChar, strAfterRBracket,
      strContainsRBracket]
  · decide

/-- A non-parameter root child carrying enum values, and its graph. -/
def c9w : Node := .mk "mode" false "" ["a"] "" "" false []

def c9root : Node := .mk "Config" false "" [] "" "" false [("mode", c9w)]

/-- The result of the first `Generate` run over `c9root`. -/
def c9p1 : String × Node :=
  match Generate ypNone "values" c9root with
  | .ok p => p
  | .error _ => ("", c9root)

/-- The result of the second `Generate` run, over the mutated graph. -/
def c9p2 : String × Node :=
  match Generate ypNone "values" c9p1.2 with
  | .ok p => p
  | .error _ => ("", c9root)

set_option maxRecDepth 10000 in
theorem c9run1 : Generate ypNone "values" c9root = .ok (c9p1.1, c9p1.2) := by
  simp [c9p1, Generate, CollectUndefined, collectRef, collectDef, refContrib,
    defContrib, refCond, defCond, baseOf, allNodes, allNodesList, descendants,
    collectDefs, defsContrib, sortStrs, insortStr, strLe, chleb,
    writeStructRoot, writeStructChildren, writeStruct, emitParamFieldsSorted,
    emitFieldsSorted, emitField, goType, quoteEnums, quoteEnumsList, jsonTag,
    addImp, addImpAlias, renameConfig, camel, camelChars, keysOf, lookupChild,
    replaceChild, strHasPref, strTrim, strTrimPref, strDrop, isStringFormat,
    Openapi.isStringFormat, Openapi.stringFormats, isPrimitive,
    Openapi.isPrimitive, Node.withChild, Node.withEnums, Node.name,
    Node.isParam, Node.typeExpr, Node.enums, Node.defaultVal, Node.comment,
    Node.omitEmpty, Node.child, c9root, c9w, ypNone, strJoin, goQuote,
    goQuoteChar, writeEnumsTop, writeEnum, impBlock, impLine]

set_option maxRecDepth 10000 in
theorem c9run2 : Generate ypNone "values" c9p1.2 = .ok (c9p2.1, c9p2.2) := by
  simp [c9p1, c9p2, Generate, CollectUndefined, collectRef, collectDef,
    refContrib, defContrib, refCond, defCond, baseOf, allNodes, allNodesList,
    descendants, collectDefs, defsContrib, sortStrs, insortStr, strLe, chleb,
    writeStructRoot, writeStructChildren, writeStruct, emitParamFieldsSorted,
    emitFieldsSorted, emitField, goType, quoteEnums, quoteEnumsList, jsonTag,
    addImp, addImpAlias, renameConfig, camel, camelChars, keysOf, lookupChild,
    replaceChild, strHasPref, strTrim, strTrimPref, strDrop, isStringFormat,
    Openapi.isStringFormat, Openapi.stringFormats, isPrimitive,
    Openapi.isPrimitive, Node.withChild, Node.withEnums, Node.name,
    Node.isParam, Node.typeExpr, Node.enums, Node.defaultVal, Node.comment,
    Node.omitEmpty, Node.child, c9root, c9w, ypNone, strJoin, goQuote,
    goQuoteChar, writeEnumsTop, writeEnum, impBlock, impLine]

theorem generate_requotes_enums_witness :
    (∃ c2, lookupChild c9p1.2.child "mode" = some c2 ∧
       c2.enums = quoteEnumsList c9w.enums) ∧
    (∃ c3, lookupChild c9p2.2.child "mode" = some c3 ∧
       c3.enums = quoteEnumsList (quoteEnumsList c9w.enums)) :=
  generate_requotes_enums ypNone "values" c9root c9p1.2 c9p2.2 c9p1.1 c9p2.1
    "mode" c9w rfl rfl rfl rfl rfl c9run1 c9run2

end OpenapiJS

/-! #### C4: `PopulateDefaults` never overwrites a set default

`PopulateDefaults` mutates `DefaultVal` fields through shared pointers (the
`aliases` map points into the same graph), so the embedding uses an explicit
store: nodes are numbered, the immutable structure (children, type
expressions, aliases) lives in a `NodeStore`, and the mutable `DefaultVal`
column is a function `Nat → String` threaded through the recursion.
`sigyaml.Marshal` and Go's `%v` formatting of compound values are external,
modelled by the parameters `ym` and `fv`. -/

/-- The immutable part of the node graph seen by `PopulateDefaults`. -/
structure NodeStore where
  child : Nat → List (String × Nat)
  typeExpr : Nat → String
  aliases : List (String × Nat)

/-- The guarded write `if child.DefaultVal == "" { child.DefaultVal = s }`. -/
def writeIfEmpty (d : Nat → String) (i : Nat) (s : String) : Nat → String :=
  if d i = "" then fun j => if j = i then s else d j else d

theorem writeIfEmpty_pres (d : Nat → String) (i : Nat) (s : String) (j : Nat)
    (h : d j ≠ "") : writeIfEmpty d i s j = d j := by
  unfold writeIfEmpty
  split
  · rename_i hdi
    by_cases hj : j = i
    · subst hj
      exact absurd hdi h
    · simp [hj]
  · rfl

namespace OpenapiJS

mutual

/-- `PopulateDefaults` of the JSDoc openapi package (the `switch` only acts
on YAML mappings). -/
def PopulateDefaults (H : NodeStore) (ym : Yaml → Option String)
    (fv : Yaml → String) (n : Nat) (y : Yaml) (d : Nat → String) :
    Nat → String :=
  match y with
  | .map kvs => PopulateDefaultsList H ym fv n kvs d
  | _ => d

/-- The `for k, yval := range v` loop body, one entry at a time. -/
def PopulateDefaultsList (H : NodeStore) (ym : Yaml → Option String)
    (fv : Yaml → String) (n : Nat) :
    List (String × Yaml) → (Nat → String) → (Nat → String)
  | [], d => d
  | (k, yval) :: rest, d =>
    PopulateDefaultsList H ym fv n rest (popStep H ym fv n k yval d)
termination_by l => sizeOf l

/-- One loop iteration: look the key up in the children map, skip absent
keys and explicit nulls, store scalars as `%v` literals, recurse into
mappings (through the alias when the type expression names one), and
serialize everything else — every write guarded by `DefaultVal == ""`. -/
def popStep (H : NodeStore) (ym : Yaml → Option String) (fv : Yaml → String)
    (n : Nat) (k : String) (yval : Yaml) (d : Nat → String) : Nat → String :=
  match (H.child n).lookup k with
  | none => d
  | some cid =>
    match yval with
    | .nul => d
    | .str s => writeIfEmpty d cid s
    | .int i => writeIfEmpty d cid (toString i)
    | .bool b => writeIfEmpty d cid (cond b "true" "false")
    | .arr xs => writeIfEmpty d cid ((ym (.arr xs)).getD (fv (.arr xs)))
    | .map kvs2 =>
      let te := strTrimPref (H.typeExpr cid) "*"
      if te = "" then
        if !(H.child cid).isEmpty then
          PopulateDefaultsList H ym fv cid kvs2 (writeIfEmpty d cid "\x7b\x7d")
        else writeIfEmpty d cid ((ym (.map kvs2)).getD "\x7b\x7d")
      else
        match H.aliases.lookup te with
        | some a =>
          if !(H.child cid).isEmpty || !(H.child a).isEmpty then
            PopulateDefaultsList H ym fv a kvs2 (writeIfEmpty d cid "\x7b\x7d")
          else writeIfEmpty d cid ((ym (.map kvs2)).getD "\x7b\x7d")
        | none =>
          if !(H.child cid).isEmpty then
            PopulateDefaultsList H ym fv cid kvs2
              (writeIfEmpty d cid "\x7b\x7d")
          else writeIfEmpty d cid ((ym (.map kvs2)).getD "\x7b\x7d")
termination_by sizeOf yval

end

end OpenapiJS

namespace Openapi

mutual

/-- `PopulateDefaults` of the dotted-path openapi package. -/
def PopulateDefaults (H : NodeStore) (ym : Yaml → Option String)
    (fv : Yaml → String) (n : Nat) (y : Yaml) (d : Nat → String) :
    Nat → String :=
  match y with
  | .map kvs => PopulateDefaultsList H ym fv n kvs d
  | _ => d

def PopulateDefaultsList (H : NodeStore) (ym : Yaml → Option String)
    (fv : Yaml → String) (n : Nat) :
    List (String × Yaml) → (Nat → String) → (Nat → String)
  | [], d => d
  | (k, yval) :: rest, d =>
    PopulateDefaultsList H ym fv n rest (popStep H ym fv n k yval d)
termination_by l => sizeOf l

/-- One loop iteration of the dotted-path variant: mappings are serialized
into the default (guarded) and then recursed into — through the alias when
the type expression names one. -/
def popStep (H : NodeStore) (ym : Yaml → Option String) (fv : Yaml → String)
    (n : Nat) (k : String) (yval : Yaml) (d : Nat → String) : Nat → String :=
  match (H.child n).lookup k with
  | none => d
  | some cid =>
    match yval with
    | .nul => d
    | .str s => writeIfEmpty d cid s
    | .int i => writeIfEmpty d cid (toString i)
    | .bool b => writeIfEmpty d cid (cond b "true" "false")
    | .arr xs => writeIfEmpty d cid ((ym (.arr xs)).getD (fv (.arr xs)))
    | .map kvs2 =>
      let d1 := writeIfEmpty d cid ((ym (.map kvs2)).getD "\x7b\x7d")
      let te := strTrimPref (H.typeExpr cid) "*"
      let target := if te = "" then cid else (H.aliases.lookup te).getD cid
      PopulateDefaultsList H ym fv target kvs2 d1
termination_by sizeOf yval

end

end Openapi

/-- Every write of the JSDoc `PopulateDefaults` is guarded by
`child.DefaultVal == ""`: entries of the default column that are already
non-empty survive both the loop body and the whole loop. -/
theorem pdPresJS (H : NodeStore) (ym : Yaml → Option String)
    (fv : Yaml → String) : ∀ N : Nat,
    (∀ (k : String) (yval : Yaml), sizeOf yval < N →
      ∀ (n : Nat) (d : Nat → String) (j : Nat), d j ≠ "" →
      OpenapiJS.popStep H ym fv n k yval d j = d j) ∧
    (∀ (l : List (String × Yaml)), sizeOf l < N →
      ∀ (n : Nat) (d : Nat → String) (j : Nat), d j ≠ "" →
      OpenapiJS.PopulateDefaultsList H ym fv n l d j = d j) := by
  intro N
  induction N with
  | zero =>
    exact ⟨fun k yval h => absurd h (Nat.not_lt_zero _),
      fun l h => absurd h (Nat.not_lt_zero _)⟩
  | succ N ih =>
    constructor
    · intro k yval hsz n d j h
      rw [OpenapiJS.popStep]
      cases hl : (H.child n).lookup k with
      | none => rfl
      | some cid =>
        cases yval with
        | nul => rfl
        | str s => exact writeIfEmpty_pres _ _ _ _ h
        | int i => exact writeIfEmpty_pres _ _ _ _ h
        | bool b => exact writeIfEmpty_pres _ _ _ _ h
        | arr xs => exact writeIfEmpty_pres _ _ _ _ h
        | map kvs2 =>
          have hkv : sizeOf kvs2 < N := by
            simp only [Yaml.map.sizeOf_spec] at hsz
            omega
          have hw1 : writeIfEmpty d cid "\x7b\x7d" j = d j :=
            writeIfEmpty_pres _ _ _ _ h
          simp only []
          split
          · split
            · rw [ih.2 kvs2 hkv _ _ j (by rw [hw1]; exact h), hw1]
            · exact writeIfEmpty_pres _ _ _ _ h
          · cases hA : List.lookup (strTrimPref (H.typeExpr cid) "*") H.aliases
              with
            | some a =>
              simp only []
              split
              · rw [ih.2 kvs2 hkv _ _ j (by rw [hw1]; exact h), hw1]
              · exact writeIfEmpty_pres _ _ _ _ h
            | none =>
              simp only []
              split
              · rw [ih.2 kvs2 hkv _ _ j (by rw [hw1]; exact h), hw1]
              · exact writeIfEmpty_pres _ _ _ _ h
    · intro l hsz n d j h
      cases l with
      | nil => rw [OpenapiJS.PopulateDefaultsList]
      | cons p rest =>
        obtain ⟨k, yval⟩ := p
        have hy : sizeOf yval < N := by
          simp only [List.cons.sizeOf_spec, Prod.mk.sizeOf_spec] at hsz
          omega
        have hr : sizeOf rest < N := by
          simp only [List.cons.sizeOf_spec, Prod.mk.sizeOf_spec] at hsz
          omega
        rw [OpenapiJS.PopulateDefaultsList]
        have h1 : OpenapiJS.popStep H ym fv n k yval d j = d j :=
          ih.1 k yval hy n d j h
        rw [ih.2 rest hr n _ j (by rw [h1]; exact h), h1]

/-- Every write of the dotted-path `PopulateDefaults` is guarded by
`child.DefaultVal == ""`. -/
theorem pdPresDP (H : NodeStore) (ym : Yaml → Option String)
    (fv : Yaml → String) : ∀ N : Nat,
    (∀ (k : String) (yval : Yaml), sizeOf yval < N →
      ∀ (n : Nat) (d : Nat → String) (j : Nat), d j ≠ "" →
      Openapi.popStep H ym fv n k yval d j = d j) ∧
    (∀ (l : List (String × Yaml)), sizeOf l < N →
      ∀ (n : Nat) (d : Nat → String) (j : Nat), d j ≠ "" →
      Openapi.PopulateDefaultsList H ym fv n l d j = d j) := by
  intro N
  induction N with
  | zero =>
    exact ⟨fun k yval h => absurd h (Nat.not_lt_zero _),
      fun l h => absurd h (Nat.not_lt_zero _)⟩
  | succ N ih =>
    constructor
    · intro k yval hsz n d j h
      rw [Openapi.popStep]
      cases hl : (H.child n).lookup k with
      | none => rfl
      | some cid =>
        cases yval with
        | nul => rfl
        | str s => exact writeIfEmpty_pres _ _ _ _ h
        | int i => exact writeIfEmpty_pres _ _ _ _ h
        | bool b => exact writeIfEmpty_pres _ _ _ _ h
        | arr xs => exact writeIfEmpty_pres _ _ _ _ h
        | map kvs2 =>
          have hkv : sizeOf kvs2 < N := by
            simp only [Yaml.map.sizeOf_spec] at hsz
            omega
          simp only []
          have hw1 : writeIfEmpty d cid ((ym (.map kvs2)).getD "\x7b\x7d") j
              = d j := writeIfEmpty_pres _ _ _ _ h
          rw [ih.2 kvs2 hkv _ _ j (by rw [hw1]; exact h), hw1]
    · intro l hsz n d j h
      cases l with
      | nil => rw [Openapi.PopulateDefaultsList]
      | cons p rest =>
        obtain ⟨k, yval⟩ := p
        have hy : sizeOf yval < N := by
          simp only [List.cons.sizeOf_spec, Prod.mk.sizeOf_spec] at hsz
          omega
        have hr : sizeOf rest < N := by
          simp only [List.cons.sizeOf_spec, Prod.mk.sizeOf_spec] at hsz
          omega
        rw [Openapi.PopulateDefaultsList]
        have h1 : Openapi.popStep H ym fv n k yval d j = d j :=
          ih.1 k yval hy n d j h
        rw [ih.2 rest hr n _ j (by rw [h1]; exact h), h1]

/-- C4: `PopulateDefaults` never overwrites a non-empty `DefaultVal` — in
both package variants, over any node store, any value document and any
external serializer/formatter, every node whose default column entry was
already non-empty keeps exactly that entry; equivalently, observed sample
values land only in nodes whose entry was empty. -/
theorem populateDefaults_never_overwrites (H : NodeStore)
    (ym : Yaml → Option String) (fv : Yaml → String) (root : Nat) (y : Yaml)
    (d : Nat → String) (i : Nat) (h : d i ≠ "") :
    OpenapiJS.PopulateDefaults H ym fv root y d i = d i ∧
    Openapi.PopulateDefaults H ym fv root y d i = d i := by
  constructor
  · cases y with
    | map kvs =>
      rw [OpenapiJS.PopulateDefaults]
      exact (pdPresJS H ym fv (sizeOf kvs + 1)).2 kvs (Nat.lt_succ_self _)
        root d i h
    | str s => rfl
    | int n => rfl
    | bool b => rfl
    | nul => rfl
    | arr xs => rfl
  · cases y with
    | map kvs =>
      rw [Openapi.PopulateDefaults]
      exact (pdPresDP H ym fv (sizeOf kvs + 1)).2 kvs (Nat.lt_succ_self _)
        root d i h
    | str s => rfl
    | int n => rfl
    | bool b => rfl
    | nul => rfl
    | arr xs => rfl

/-- A concrete instance for the witness: node 0 is the root with one child
`a` (node 1), whose default is preset to `5` by an annotation. -/
def c4H : NodeStore :=
  ⟨fun n => if n = 0 then [("a", 1)] else [], fun _ => "", []⟩

def c4d : Nat → String := fun j => if j = 1 then "5" else ""

def c4y : Yaml := .map [("a", .str "7")]

theorem populateDefaults_never_overwrites_witness :
    OpenapiJS.PopulateDefaults c4H (fun _ => none) (fun _ => "") 0 c4y c4d 1
      = c4d 1 ∧
    Openapi.PopulateDefaults c4H (fun _ => none) (fun _ => "") 0 c4y c4d 1
      = c4d 1 :=
  populateDefaults_never_overwrites c4H (fun _ => none) (fun _ => "") 0 c4y
    c4d 1 (by simp [c4d])

/-! #### The readme package's value validator (`validateValues`) -/

/-- First error of a loop with early return: the first `some` of the
per-iteration results. -/
def firstErr : List (Option String) → Option String
  | [] => none
  | some e :: _ => some e
  | none :: rest => firstErr rest

/-- Indexed iteration `for i, v := range arr`. -/
def enumIdx {α : Type} : Nat → List α → List (Nat × α)
  | _, [] => []
  | i, x :: xs => (i, x) :: enumIdx (i + 1) xs

theorem snd_mem_of_mem_enumIdx {α : Type} :
    ∀ (i : Nat) (l : List α) (p : Nat × α), p ∈ enumIdx i l → p.2 ∈ l := by
  intro i l
  induction l generalizing i with
  | nil => intro p h; cases h
  | cons x xs ih =>
    intro p h
    rw [enumIdx] at h
    rcases List.mem_cons.mp h with h | h
    · subst h
      exact List.mem_cons_self _ _
    · exact List.mem_cons_of_mem _ (ih (i + 1) p h)

namespace Readme

/-- The parameter metadata rows of the readme package. -/
structure ParamMeta where
  name : String
  typeOriginal : String
  typeName : String
  description : String

/-- The field metadata rows of the readme package. -/
structure FieldMeta where
  parentTypeName : String
  name : String
  typ : String
  description : String

/-- The `t[:strings.IndexAny(t, " \t")]` truncation of `deriveTypeName`. -/
def cutAtSpace (t : String) : String :=
  ⟨t.data.takeWhile (fun c => !(c == ' ' || c == '\t'))⟩

/-- `deriveTypeName`: strip one `[]`, `*` or `map[...]` shell from a type
expression (after cutting at the first blank). -/
def deriveTypeName (t0 : String) : String :=
  let t := cutAtSpace t0
  if strHasPref t "[]" then strDrop t 2
  else if strHasPref t "*" then strDrop t 1
  else if strHasPref t "map[" then
    let suf := (t.data.reverse.takeWhile (fun c => !(c == ']'))).reverse
    if t.data.contains ']' && !suf.isEmpty then ⟨suf⟩ else t
  else t

/-- `isPrimitive` of the readme package: strips a pointer marker, then
string formats, basic types and the five semantic aliases. -/
def isPrimitive (t : String) : Bool :=
  let base := strTrimPref t "*"
  Openapi.isStringFormat base ||
    (["string", "bool", "int", "int32", "int64", "float32", "float64",
      "quantity", "duration", "time", "object", "emptyobject"].contains base)

/-- `fmt.Errorf("type '%s' referenced at '%s' has no schema", base, path)`. -/
def errNoSchema (base path : String) : String :=
  "type " ++ sq ++ base ++ sq ++ " referenced at " ++ sq ++ path ++ sq ++
    " has no schema"

/-- `fmt.Errorf("field '%s.%s' is not defined in schema", path, k)`. -/
def errField (path k : String) : String :=
  "field " ++ sq ++ path ++ "." ++ k ++ sq ++ " is not defined in schema"

/-- `fmt.Errorf("parameter '%s' is not defined in schema", k)`. -/
def errParam (k : String) : String :=
  "parameter " ++ sq ++ k ++ sq ++ " is not defined in schema"

/-- The Go map `allowed[k]` built by insertion (`for _, f := range fields`,
last insertion wins). -/
def findField (fields : List FieldMeta) (k : String) : Option FieldMeta :=
  fields.reverse.find? (fun f => f.name == k)

/-- The recursive `checkValue` closure of `validateValues`.  Map iteration
is in sorted-key order (the Go code sorts the keys first); external state is
absent, so the closure is a pure function returning the first error. -/
def checkValue (tf : List (String × List FieldMeta)) (kt : List String)
    (path : String) (val : Yaml) (typ : String) : Option String :=
  if strHasPref typ "map[" then
    match val with
    | .map m =>
      firstErr ((sortByKey m).attach.map
        (fun p => checkValue tf kt (path ++ "." ++ p.1.1) p.1.2
          (deriveTypeName typ)))
    | _ => none
  else if strHasPref typ "[]" then
    match val with
    | .arr xs =>
      firstErr ((enumIdx 0 xs).attach.map
        (fun p => checkValue tf kt (path ++ "[" ++ toString p.1.1 ++ "]")
          p.1.2 (deriveTypeName typ)))
    | _ => none
  else if strHasPref typ "*" then
    checkValue tf kt path val (strTrimPref typ "*")
  else
    let base := deriveTypeName typ
    if isPrimitive base || strContainsSub base "quantity" then none
    else
      match tf.lookup base with
      | none => if kt.contains base then none else some (errNoSchema base path)
      | some fields =>
        match val with
        | .map m =>
          firstErr ((sortByKey m).attach.map
            (fun p =>
              match findField fields p.1.1 with
              | none => some (errField path p.1.1)
              | some fm =>
                checkValue tf kt (path ++ "." ++ p.1.1) p.1.2 fm.typ))
        | _ => none
termination_by (sizeOf val, typ.data.length)
decreasing_by
  · obtain ⟨⟨k, v⟩, hmem⟩ := p
    have hm : (k, v) ∈ kvs := mem_sortByKey.mp hmem
    have hs := List.sizeOf_lt_of_mem hm
    simp only [Prod.mk.sizeOf_spec] at hs
    exact Prod.Lex.left _ _ (by simp only [Yaml.map.sizeOf_spec]; omega)
  · obtain ⟨⟨i, v⟩, hmem⟩ := p
    have hm : v ∈ xs := snd_mem_of_mem_enumIdx 0 xs (i, v) hmem
    have hs := List.sizeOf_lt_of_mem hm
    exact Prod.Lex.left _ _ (by simp only [Yaml.arr.sizeOf_spec]; omega)
  · rename_i _h1 _h2 h3
    refine Prod.Lex.right _ ?_
    have hl : 1 ≤ typ.data.length := by
      have := length_of_hasPref h3
      simpa using this
    rw [strTrimPref, if_pos h3]
    simp only [strDrop, List.length_drop, List.length_cons, List.length_nil]
    omega
  · obtain ⟨⟨k, v⟩, hmem⟩ := p
    have hm : (k, v) ∈ kvs := mem_sortByKey.mp hmem
    have hs := List.sizeOf_lt_of_mem hm
    simp only [Prod.mk.sizeOf_spec] at hs
    exact Prod.Lex.left _ _ (by simp only [Yaml.map.sizeOf_spec]; omega)

/-- The Go map `paramMap[k]` (last insertion wins). -/
def findParam (params : List ParamMeta) (k : String) : Option ParamMeta :=
  params.reverse.find? (fun q => q.name == k)

/-- `validateValues`: check every top-level key (in sorted order) against
the declared parameters, then recurse through `checkValue`. -/
def validateValues (params : List ParamMeta)
    (tf : List (String × List FieldMeta)) (values : List (String × Yaml))
    (kt : List String) : Option String :=
  firstErr ((sortByKey values).map
    (fun p =>
      match findParam params p.1 with
      | none => some (errParam p.1)
      | some pm => checkValue tf kt p.1 p.2 pm.typeOriginal))

/-! #### C10: non-mapping values pass at struct-typed positions -/

/-- C10: when the declared type is a plain named type with declared fields
(no `map[`/`[]`/`*` shell, not primitive, not a quantity-like alias), a
value that is not a YAML mapping — a scalar or an array — makes
`checkValue` return success without any error: the `val.(map[string]interface{})`
type assertion fails and the function returns `nil`. -/
theorem checkValue_nonmap_ok (tf : List (String × List FieldMeta))
    (kt : List String) (path : String) (val : Yaml) (typ : String)
    (fields : List FieldMeta)
    (h1 : strHasPref typ "map[" = false)
    (h2 : strHasPref typ "[]" = false)
    (h3 : strHasPref typ "*" = false)
    (h4 : isPrimitive (deriveTypeName typ) = false)
    (h5 : strContainsSub (deriveTypeName typ) "quantity" = false)
    (h6 : tf.lookup (deriveTypeName typ) = some fields)
    (h7 : ∀ m, val ≠ Yaml.map m) :
    checkValue tf kt path val typ = none := by
  rw [checkValue.eq_def]
  rw [if_neg (by simp [h1]), if_neg (by simp [h2]), if_neg (by simp [h3])]
  simp only []
  rw [if_neg (by simp [h4, h5])]
  cases val with
  | map m => exact absurd rfl (h7 m)
  | str s => simp only [h6]
  | int n => simp only [h6]
  | bool b => simp only [h6]
  | nul => simp only [h6]
  | arr xs => simp only [h6]

def c10tf : List (String × List FieldMeta) := [("Foo", [⟨"Foo", "x", "int", ""⟩])]

theorem checkValue_nonmap_ok_witness :
    checkValue c10tf [] "p" (Yaml.int 5) "Foo" = none :=
  checkValue_nonmap_ok c10tf [] "p" (Yaml.int 5) "Foo" [⟨"Foo", "x", "int", ""⟩]
    (by decide) (by decide) (by decide) (by decide) (by decide) rfl
    (fun m h => Yaml.noConfusion h)

/-! #### C2: characterizing the rejections of `validateValues` -/

theorem firstErr_ne_none :
    ∀ l : List (Option String), firstErr l ≠ none ↔ ∃ o ∈ l, o ≠ none := by
  intro l
  induction l with
  | nil => simp [firstErr]
  | cons o rest ih =>
    cases o with
    | some e =>
      constructor
      · intro _
        exact ⟨some e, List.mem_cons_self _ _, by simp⟩
      · intro _
        rw [firstErr]
        simp
    | none =>
      rw [firstErr]
      rw [ih]
      constructor
      · rintro ⟨o, ho, hne⟩
        exact ⟨o, List.mem_cons_of_mem _ ho, hne⟩
      · rintro ⟨o, ho, hne⟩
        rcases List.mem_cons.mp ho with rfl | ho
        · exact absurd rfl hne
        · exact ⟨o, ho, hne⟩

theorem firstErr_attach_ne {α : Type} (l : List α)
    (f : {x // x ∈ l} → Option String) :
    firstErr (l.attach.map f) ≠ none ↔ ∃ x : {x // x ∈ l}, f x ≠ none := by
  rw [firstErr_ne_none]
  constructor
  · rintro ⟨o, ho, hne⟩
    obtain ⟨p, hp, rfl⟩ := List.mem_map.mp ho
    exact ⟨p, hne⟩
  · rintro ⟨p, hne⟩
    exact ⟨f p, List.mem_map_of_mem f (List.mem_attach l p), hne⟩

theorem exists_mem_enumIdx {α : Type} :
    ∀ (i : Nat) (l : List α) (v : α), v ∈ l → ∃ j, (j, v) ∈ enumIdx i l := by
  intro i l
  induction l generalizing i with
  | nil => intro v h; cases h
  | cons x xs ih =>
    intro v h
    rcases List.mem_cons.mp h with rfl | h
    · exact ⟨i, by rw [enumIdx]; exact List.mem_cons_self _ _⟩
    · obtain ⟨j, hj⟩ := ih (i + 1) v h
      exact ⟨j, by rw [enumIdx]; exact List.mem_cons_of_mem _ hj⟩

/-- The rejection conditions of the validator, as a predicate on a value
and its declared type (the spec's cases, plus the no-schema case (c)):
a bad value is a map entry, array item or pointer target that is bad at the
stripped type, a value whose resolved base type has neither a schema nor a
known-type registration, or a mapping with a key outside its type's
declared fields (or bad at the field's type).  Mirrors the guard structure
of `checkValue` so that rejection is equivalent to badness. -/
inductive BadVal (tf : List (String × List FieldMeta)) (kt : List String) :
    Yaml → String → Prop where
  | mapEntry {typ : String} {m : List (String × Yaml)} {k : String} {v : Yaml} :
      strHasPref typ "map[" = true → (k, v) ∈ m →
      BadVal tf kt v (deriveTypeName typ) → BadVal tf kt (.map m) typ
  | arrItem {typ : String} {xs : List Yaml} {v : Yaml} :
      strHasPref typ "map[" = false → strHasPref typ "[]" = true → v ∈ xs →
      BadVal tf kt v (deriveTypeName typ) → BadVal tf kt (.arr xs) typ
  | ptr {typ : String} {val : Yaml} :
      strHasPref typ "map[" = false → strHasPref typ "[]" = false →
      strHasPref typ "*" = true →
      BadVal tf kt val (strTrimPref typ "*") → BadVal tf kt val typ
  | noSchema {typ : String} {val : Yaml} :
      strHasPref typ "map[" = false → strHasPref typ "[]" = false →
      strHasPref typ "*" = false →
      isPrimitive (deriveTypeName typ) = false →
      strContainsSub (deriveTypeName typ) "quantity" = false →
      tf.lookup (deriveTypeName typ) = none →
      kt.contains (deriveTypeName typ) = false →
      BadVal tf kt val typ
  | unknownField {typ : String} {m : List (String × Yaml)} {k : String}
      {v : Yaml} {fields : List FieldMeta} :
      strHasPref typ "map[" = false → strHasPref typ "[]" = false →
      strHasPref typ "*" = false →
      isPrimitive (deriveTypeName typ) = false →
      strContainsSub (deriveTypeName typ) "quantity" = false →
      tf.lookup (deriveTypeName typ) = some fields →
      (k, v) ∈ m → findField fields k = none →
      BadVal tf kt (.map m) typ
  | fieldRec {typ : String} {m : List (String × Yaml)} {k : String}
      {v : Yaml} {fields : List FieldMeta} {fm : FieldMeta} :
      strHasPref typ "map[" = false → strHasPref typ "[]" = false →
      strHasPref typ "*" = false →
      isPrimitive (deriveTypeName typ) = false →
      strContainsSub (deriveTypeName typ) "quantity" = false →
      tf.lookup (deriveTypeName typ) = some fields →
      (k, v) ∈ m → findField fields k = some fm →
      BadVal tf kt v fm.typ → BadVal tf kt (.map m) typ

theorem bool_false_of_not_true {b : Bool} (h : ¬ b = true) : b = false := by
  cases b
  · rfl
  · exact absurd rfl h

theorem badValNotWhenMapGuard {tf : List (String × List FieldMeta)}
    {kt : List String} {val : Yaml} {typ : String}
    (hmap : strHasPref typ "map[" = true) (hnm : ∀ m, val ≠ Yaml.map m) :
    ¬ BadVal tf kt val typ := by
  intro hb
  cases hb with
  | mapEntry hg hm hbv => exact (hnm _) rfl
  | arrItem hg _ _ _ => rw [hmap] at hg; exact Bool.noConfusion hg
  | ptr hg _ _ _ => rw [hmap] at hg; exact Bool.noConfusion hg
  | noSchema hg _ _ _ _ _ _ => rw [hmap] at hg; exact Bool.noConfusion hg
  | unknownField _ _ _ _ _ _ _ _ => exact (hnm _) rfl
  | fieldRec _ _ _ _ _ _ _ _ _ => exact (hnm _) rfl

theorem badValNotWhenArrGuard {tf : List (String × List FieldMeta)}
    {kt : List String} {val : Yaml} {typ : String}
    (hmapf : strHasPref typ "map[" = false)
    (harr : strHasPref typ "[]" = true) (hna : ∀ xs, val ≠ Yaml.arr xs) :
    ¬ BadVal tf kt val typ := by
  intro hb
  cases hb with
  | mapEntry hg _ _ => rw [hmapf] at hg; exact Bool.noConfusion hg
  | arrItem _ _ _ _ => exact (hna _) rfl
  | ptr _ hg _ _ => rw [harr] at hg; exact Bool.noConfusion hg
  | noSchema _ hg _ _ _ _ _ => rw [harr] at hg; exact Bool.noConfusion hg
  | unknownField _ hg _ _ _ _ _ _ => rw [harr] at hg; exact Bool.noConfusion hg
  | fieldRec _ hg _ _ _ _ _ _ _ => rw [harr] at hg; exact Bool.noConfusion hg

theorem badValNotWhenPrim {tf : List (String × List FieldMeta)}
    {kt : List String} {val : Yaml} {typ : String}
    (hmapf : strHasPref typ "map[" = false)
    (harrf : strHasPref typ "[]" = false)
    (hptrf : strHasPref typ "*" = false)
    (hpq : (isPrimitive (deriveTypeName typ) ||
      strContainsSub (deriveTypeName typ) "quantity") = true) :
    ¬ BadVal tf kt val typ := by
  intro hb
  cases hb with
  | mapEntry hg _ _ => rw [hmapf] at hg; exact Bool.noConfusion hg
  | arrItem _ hg _ _ => rw [harrf] at hg; exact Bool.noConfusion hg
  | ptr _ _ hg _ => rw [hptrf] at hg; exact Bool.noConfusion hg
  | noSchema _ _ _ hp hq _ _ => rw [hp, hq] at hpq; exact Bool.noConfusion hpq
  | unknownField _ _ _ hp hq _ _ _ =>
    rw [hp, hq] at hpq
    exact Bool.noConfusion hpq
  | fieldRec _ _ _ hp hq _ _ _ _ =>
    rw [hp, hq] at hpq
    exact Bool.noConfusion hpq

theorem badValNotWhenKnown {tf : List (String × List FieldMeta)}
    {kt : List String} {val : Yaml} {typ : String}
    (hmapf : strHasPref typ "map[" = false)
    (harrf : strHasPref typ "[]" = false)
    (hptrf : strHasPref typ "*" = false)
    (hlk : tf.lookup (deriveTypeName typ) = none)
    (hkt : kt.contains (deriveTypeName typ) = true) :
    ¬ BadVal tf kt val typ := by
  intro hb
  cases hb with
  | mapEntry hg _ _ => rw [hmapf] at hg; exact Bool.noConfusion hg
  | arrItem _ hg _ _ => rw [harrf] at hg; exact Bool.noConfusion hg
  | ptr _ _ hg _ => rw [hptrf] at hg; exact Bool.noConfusion hg
  | noSchema _ _ _ _ _ _ hk => rw [hkt] at hk; exact Bool.noConfusion hk
  | unknownField _ _ _ _ _ hl _ _ =>
    rw [hlk] at hl
    exact Option.noConfusion hl
  | fieldRec _ _ _ _ _ hl _ _ _ =>
    rw [hlk] at hl
    exact Option.noConfusion hl

theorem badValNotWhenPlainNonmap {tf : List (String × List FieldMeta)}
    {kt : List String} {val : Yaml} {typ : String}
    {fields : List FieldMeta}
    (harrf : strHasPref typ "[]" = false)
    (hptrf : strHasPref typ "*" = false)
    (hlk : tf.lookup (deriveTypeName typ) = some fields)
    (hnm : ∀ m, val ≠ Yaml.map m) :
    ¬ BadVal tf kt val typ := by
  intro hb
  cases hb with
  | mapEntry _ _ _ => exact (hnm _) rfl
  | arrItem _ hg _ _ => rw [harrf] at hg; exact Bool.noConfusion hg
  | ptr _ _ hg _ => rw [hptrf] at hg; exact Bool.noConfusion hg
  | noSchema _ _ _ _ _ hl _ =>
    rw [hlk] at hl
    exact Option.noConfusion hl
  | unknownField _ _ _ _ _ _ _ _ => exact (hnm _) rfl
  | fieldRec _ _ _ _ _ _ _ _ _ => exact (hnm _) rfl

theorem sizeOf_lt_of_mem_mapVal {m : List (String × Yaml)} {k : String}
    {v : Yaml} (hm : (k, v) ∈ m) {N : Nat}
    (h : sizeOf (Yaml.map m) < N + 1) : sizeOf v < N := by
  have h1 := List.sizeOf_lt_of_mem hm
  simp only [Prod.mk.sizeOf_spec] at h1
  simp only [Yaml.map.sizeOf_spec] at h
  omega

theorem sizeOf_lt_of_mem_arrVal {xs : List Yaml} {v : Yaml} (hv : v ∈ xs)
    {N : Nat} (h : sizeOf (Yaml.arr xs) < N + 1) : sizeOf v < N := by
  have h1 := List.sizeOf_lt_of_mem hv
  simp only [Yaml.arr.sizeOf_spec] at h
  omega

/-- `checkValue` rejects (returns an error) exactly when the value is bad at
its declared type, independently of the path argument. -/
theorem checkValue_ne_none_iff (tf : List (String × List FieldMeta))
    (kt : List String) :
    ∀ N : Nat, ∀ val : Yaml, sizeOf val < N →
    ∀ M : Nat, ∀ typ path : String, typ.data.length < M →
    (checkValue tf kt path val typ ≠ none ↔ BadVal tf kt val typ) := by
  intro N
  induction N with
  | zero => intro val h; exact absurd h (Nat.not_lt_zero _)
  | succ N ihN =>
    intro val hval M
    induction M with
    | zero => intro typ path h; exact absurd h (Nat.not_lt_zero _)
    | succ M ihM =>
      intro typ path htyp
      rw [checkValue.eq_def]
      by_cases hmap : strHasPref typ "map[" = true
      · rw [if_pos hmap]
        cases val with
        | map m =>
          rw [firstErr_attach_ne]
          constructor
          · rintro ⟨⟨⟨k, v⟩, hmem⟩, hne⟩
            simp only [] at hne
            have hm : (k, v) ∈ m := mem_sortByKey.mp hmem
            exact BadVal.mapEntry hmap hm
              ((ihN v (sizeOf_lt_of_mem_mapVal hm hval) _ (deriveTypeName typ)
                (path ++ "." ++ k) (Nat.lt_succ_self _)).mp hne)
          · intro hb
            cases hb with
            | @mapEntry _ _ k v hg hm hbv =>
              refine ⟨⟨(k, v), mem_sortByKey.mpr hm⟩, ?_⟩
              simp only []
              exact (ihN v (sizeOf_lt_of_mem_mapVal hm hval) _
                (deriveTypeName typ) (path ++ "." ++ k)
                (Nat.lt_succ_self _)).mpr hbv
            | ptr hg _ _ _ => rw [hmap] at hg; exact Bool.noConfusion hg
            | noSchema hg _ _ _ _ _ _ => rw [hmap] at hg; exact Bool.noConfusion hg
            | unknownField hg _ _ _ _ _ _ _ =>
              rw [hmap] at hg
              exact Bool.noConfusion hg
            | fieldRec hg _ _ _ _ _ _ _ _ =>
              rw [hmap] at hg
              exact Bool.noConfusion hg
        | str s =>
          exact iff_of_false (fun h => h rfl)
            (badValNotWhenMapGuard hmap (fun m h => Yaml.noConfusion h))
        | int n =>
          exact iff_of_false (fun h => h rfl)
            (badValNotWhenMapGuard hmap (fun m h => Yaml.noConfusion h))
        | bool b =>
          exact iff_of_false (fun h => h rfl)
            (badValNotWhenMapGuard hmap (fun m h => Yaml.noConfusion h))
        | nul =>
          exact iff_of_false (fun h => h rfl)
            (badValNotWhenMapGuard hmap (fun m h => Yaml.noConfusion h))
        | arr xs =>
          exact iff_of_false (fun h => h rfl)
            (badValNotWhenMapGuard hmap (fun m h => Yaml.noConfusion h))
      · have hmapf := bool_false_of_not_true hmap
        rw [if_neg hmap]
        by_cases harr : strHasPref typ "[]" = true
        · rw [if_pos harr]
          cases val with
          | arr xs =>
            rw [firstErr_attach_ne]
            constructor
            · rintro ⟨⟨⟨i, v⟩, hmem⟩, hne⟩
              simp only [] at hne
              have hv : v ∈ xs := snd_mem_of_mem_enumIdx 0 xs (i, v) hmem
              exact BadVal.arrItem hmapf harr hv
                ((ihN v (sizeOf_lt_of_mem_arrVal hv hval) _ (deriveTypeName typ)
                  (path ++ "[" ++ toString i ++ "]") (Nat.lt_succ_self _)).mp hne)
            · intro hb
              cases hb with
              | @arrItem _ _ v hg1 hg2 hv hbv =>
                obtain ⟨j, hj⟩ := exists_mem_enumIdx 0 xs v hv
                refine ⟨⟨(j, v), hj⟩, ?_⟩
                simp only []
                exact (ihN v (sizeOf_lt_of_mem_arrVal hv hval) _
                  (deriveTypeName typ) (path ++ "[" ++ toString j ++ "]")
                  (Nat.lt_succ_self _)).mpr hbv
              | ptr _ hg _ _ => rw [harr] at hg; exact Bool.noConfusion hg
              | noSchema _ hg _ _ _ _ _ =>
                rw [harr] at hg
                exact Bool.noConfusion hg
          | str s =>
            exact iff_of_false (fun h => h rfl)
              (badValNotWhenArrGuard hmapf harr (fun xs h => Yaml.noConfusion h))
          | int n =>
            exact iff_of_false (fun h => h rfl)
              (badValNotWhenArrGuard hmapf harr (fun xs h => Yaml.noConfusion h))
          | bool b =>
            exact iff_of_false (fun h => h rfl)
              (badValNotWhenArrGuard hmapf harr (fun xs h => Yaml.noConfusion h))
          | nul =>
            exact iff_of_false (fun h => h rfl)
              (badValNotWhenArrGuard hmapf harr (fun xs h => Yaml.noConfusion h))
          | map m =>
            exact iff_of_false (fun h => h rfl)
              (badValNotWhenArrGuard hmapf harr (fun xs h => Yaml.noConfusion h))
        · have harrf := bool_false_of_not_true harr
          rw [if_neg harr]
          by_cases hptr : strHasPref typ "*" = true
          · rw [if_pos hptr]
            have hlen : (strTrimPref typ "*").data.length < M := by
              have h1 : 1 ≤ typ.data.length := by
                have := length_of_hasPref hptr
                simpa using this
              rw [strTrimPref, if_pos hptr]
              simp only [strDrop, List.length_drop, List.length_cons,
                List.length_nil]
              omega
            rw [ihM (strTrimPref typ "*") path hlen]
            constructor
            · exact fun hb => BadVal.ptr hmapf harrf hptr hb
            · intro hb
              cases hb with
              | mapEntry hg _ _ => rw [hmapf] at hg; exact Bool.noConfusion hg
              | arrItem _ hg _ _ => rw [harrf] at hg; exact Bool.noConfusion hg
              | ptr _ _ _ hbv => exact hbv
              | noSchema _ _ hg _ _ _ _ =>
                rw [hptr] at hg
                exact Bool.noConfusion hg
              | unknownField _ _ hg _ _ _ _ _ =>
                rw [hptr] at hg
                exact Bool.noConfusion hg
              | fieldRec _ _ hg _ _ _ _ _ _ =>
                rw [hptr] at hg
                exact Bool.noConfusion hg
          · have hptrf := bool_false_of_not_true hptr
            rw [if_neg hptr]
            simp only []
            by_cases hpq : (isPrimitive (deriveTypeName typ) ||
                strContainsSub (deriveTypeName typ) "quantity") = true
            · rw [if_pos hpq]
              exact iff_of_false (fun h => h rfl)
                (badValNotWhenPrim hmapf harrf hptrf hpq)
            · obtain ⟨hprim, hquant⟩ :=
                Bool.or_eq_false_iff.mp (bool_false_of_not_true hpq)
              rw [if_neg hpq]
              cases hlk : List.lookup (deriveTypeName typ) tf with
              | none =>
                simp only []
                by_cases hkt : kt.contains (deriveTypeName typ) = true
                · rw [if_pos hkt]
                  exact iff_of_false (fun h => h rfl)
                    (badValNotWhenKnown hmapf harrf hptrf hlk hkt)
                · rw [if_neg hkt]
                  exact iff_of_true (by simp)
                    (BadVal.noSchema hmapf harrf hptrf hprim hquant hlk
                      (bool_false_of_not_true hkt))
              | some fields =>
                simp only []
                cases val with
                | map m =>
                  rw [firstErr_attach_ne]
                  constructor
                  · rintro ⟨⟨⟨k, v⟩, hmem⟩, hne⟩
                    simp only [] at hne
                    have hm : (k, v) ∈ m := mem_sortByKey.mp hmem
                    cases hff : findField fields k with
                    | none =>
                      exact BadVal.unknownField hmapf harrf hptrf hprim hquant
                        hlk hm hff
                    | some fm =>
                      rw [hff] at hne
                      exact BadVal.fieldRec hmapf harrf hptrf hprim hquant hlk
                        hm hff
                        ((ihN v (sizeOf_lt_of_mem_mapVal hm hval) _ fm.typ
                          (path ++ "." ++ k) (Nat.lt_succ_self _)).mp hne)
                  · intro hb
                    cases hb with
                    | mapEntry hg _ _ =>
                      rw [hmapf] at hg
                      exact Bool.noConfusion hg
                    | ptr _ _ hg _ =>
                      rw [hptrf] at hg
                      exact Bool.noConfusion hg
                    | noSchema _ _ _ _ _ hl _ =>
                      rw [hlk] at hl
                      exact Option.noConfusion hl
                    | @unknownField _ _ k v fields2 hg1 hg2 hg3 hg4 hg5 hl hm hff =>
                      rw [hlk] at hl
                      injection hl with he
                      subst he
                      refine ⟨⟨(k, v), mem_sortByKey.mpr hm⟩, ?_⟩
                      simp only [hff]
                      simp
                    | @fieldRec _ _ k v fields2 fm hg1 hg2 hg3 hg4 hg5 hl hm hff hbv =>
                      rw [hlk] at hl
                      injection hl with he
                      subst he
                      refine ⟨⟨(k, v), mem_sortByKey.mpr hm⟩, ?_⟩
                      simp only [hff]
                      exact (ihN v (sizeOf_lt_of_mem_mapVal hm hval) _ fm.typ
                        (path ++ "." ++ k) (Nat.lt_succ_self _)).mpr hbv
                | str s =>
                  exact iff_of_false (fun h => h rfl)
                    (badValNotWhenPlainNonmap harrf hptrf hlk
                      (fun m h => Yaml.noConfusion h))
                | int n =>
                  exact iff_of_false (fun h => h rfl)
                    (badValNotWhenPlainNonmap harrf hptrf hlk
                      (fun m h => Yaml.noConfusion h))
                | bool b =>
                  exact iff_of_false (fun h => h rfl)
                    (badValNotWhenPlainNonmap harrf hptrf hlk
                      (fun m h => Yaml.noConfusion h))
                | nul =>
                  exact iff_of_false (fun h => h rfl)
                    (badValNotWhenPlainNonmap harrf hptrf hlk
                      (fun m h => Yaml.noConfusion h))
                | arr xs =>
                  exact iff_of_false (fun h => h rfl)
                    (badValNotWhenPlainNonmap harrf hptrf hlk
                      (fun m h => Yaml.noConfusion h))

/-- C2 (amended): `validateValues` rejects a value document exactly when
some top-level entry either names no declared parameter, or carries a value
that is bad at the parameter's declared type — where bad covers the claim's
case (b) (a nested key outside its named type's declared fields, flagged
as "field ... is not defined in schema") together with the additional case
the claim omits: a value whose resolved base type has neither a field
schema nor a known-type registration ("type ... has no schema").  Pointer
wrapping is unwrapped, arrays recurse at every index, maps recurse at
present keys only, and primitive or quantity-like leaves never reject
(`BadVal` has no constructor for them). -/
theorem validateValues_error_characterization (params : List ParamMeta)
    (tf : List (String × List FieldMeta)) (values : List (String × Yaml))
    (kt : List String) :
    validateValues params tf values kt ≠ none ↔
      ∃ p ∈ values, findParam params p.1 = none ∨
        ∃ pm, findParam params p.1 = some pm ∧
          BadVal tf kt p.2 pm.typeOriginal := by
  rw [validateValues, firstErr_ne_none]
  constructor
  · rintro ⟨o, ho, hne⟩
    obtain ⟨p, hp, rfl⟩ := List.mem_map.mp ho
    have hpv : p ∈ values := mem_sortByKey.mp hp
    refine ⟨p, hpv, ?_⟩
    cases hfp : findParam params p.1 with
    | none => exact Or.inl rfl
    | some pm =>
      rw [hfp] at hne
      exact Or.inr ⟨pm, rfl,
        (checkValue_ne_none_iff tf kt (sizeOf p.2 + 1) p.2 (Nat.lt_succ_self _)
          (pm.typeOriginal.data.length + 1) pm.typeOriginal p.1
          (Nat.lt_succ_self _)).mp hne⟩
  · rintro ⟨p, hp, hcase⟩
    refine ⟨_, List.mem_map_of_mem _ (mem_sortByKey.mpr hp), ?_⟩
    cases hfp : findParam params p.1 with
    | none => simp [hfp]
    | some pm =>
      rcases hcase with hnone | ⟨pm2, hpm2, hbv⟩
      · rw [hfp] at hnone
        exact Option.noConfusion hnone
      · rw [hfp] at hpm2
        injection hpm2 with he
        subst he
        simp only [hfp]
        exact (checkValue_ne_none_iff tf kt (sizeOf p.2 + 1) p.2
          (Nat.lt_succ_self _) (pm.typeOriginal.data.length + 1)
          pm.typeOriginal p.1 (Nat.lt_succ_self _)).mpr hbv

/-- The counterexample document: the single top-level key `p` is declared
(with type `Foo`), but `Foo` has no schema at all. -/
def c2params : List ParamMeta := [⟨"p", "Foo", "Foo", ""⟩]

def c2vals : List (String × Yaml) := [("p", Yaml.int 5)]

set_option maxRecDepth 4000 in
/-- C2 counterexample: the claim's "if and only if" fails — here every
top-level key is declared (ruling out case (a)) and the value document has
no nested keys at all (ruling out case (b), whose error would start with
"field "), yet `validateValues` rejects, with the third error form
`type 'Foo' referenced at 'p' has no schema`. -/
theorem validateValues_claim_counterexample :
    validateValues c2params [] c2vals [] = some (errNoSchema "Foo" "p") ∧
    (∀ k ∈ c2vals.map Prod.fst, ∃ q ∈ c2params, q.name = k) ∧
    strHasPref (errNoSchema "Foo" "p") "field " = false ∧
    strHasPref (errNoSchema "Foo" "p") "parameter " = false := by
  refine ⟨?_, by decide, by decide, by decide⟩
  simp [validateValues, c2params, c2vals, sortByKey, insortByKey, findParam,
    firstErr, checkValue, deriveTypeName, cutAtSpace, isPrimitive,
    Openapi.isStringFormat, Openapi.stringFormats, strHasPref, strTrimPref,
    strDrop, strContainsSub, errNoSchema]

end Readme

/-! #### C7: the key-consistency validator of readme.go (`checkKeys`) -/

namespace ReadmeTable

/-- A parameter row of readme.go, restricted to the fields `checkKeys`
consults (`Name`, `Type`, `Validate`; `@field` rows are parsed with
`Validate = false`). -/
structure Parameter where
  name : String
  typ : String
  validate : Bool

/-- The `skip` set: parameters typed `object`/`array`, and parameters that
some real key extends (`rk != p.Name && (HasPrefix(rk, p.Name+".") ||
HasPrefix(rk, p.Name+"["))`). -/
def skipSet (realKeys : List String) (meta : List Parameter) : List String :=
  meta.filterMap (fun p =>
    if p.typ = "object" ∨ p.typ = "array" then some p.name
    else if realKeys.any (fun rk =>
        decide (rk ≠ p.name) &&
        (strHasPref rk (p.name ++ ".") || strHasPref rk (p.name ++ "["))) then
      some p.name
    else none)

/-- The `isSkipped` closure. -/
def isSkipped (realKeys : List String) (meta : List Parameter)
    (path : String) : Bool :=
  (skipSet realKeys meta).any (fun pref =>
    decide (path = pref) || strHasPref path (pref ++ ".") ||
      strHasPref path (pref ++ "["))

/-- The `metaSet`: names of parameters with `Validate` set. -/
def metaSet (meta : List Parameter) : List String :=
  meta.filterMap (fun p => if p.validate then some p.name else none)

/-- The `missing` list: real keys that are neither skipped nor declared
by a validated parameter (sorted; the Go sets are modelled by `dedup`). -/
def missingOf (realKeys : List String) (meta : List Parameter) : List String :=
  sortStrs (realKeys.dedup.filter (fun rk =>
    !(isSkipped realKeys meta rk) && !((metaSet meta).contains rk)))

/-- The `orphan` list: validated parameter names that are neither present
among the real keys nor skipped (sorted). -/
def orphanOf (realKeys : List String) (meta : List Parameter) : List String :=
  sortStrs ((metaSet meta).dedup.filter (fun mk =>
    !(realKeys.contains mk) && !(isSkipped realKeys meta mk)))

/-- `checkKeys`: flags the missing and the orphan keys, or succeeds when
both lists are empty. -/
def checkKeys (realKeys : List String) (meta : List Parameter) :
    Option String :=
  let missing := missingOf realKeys meta
  let orphan := orphanOf realKeys meta
  if missing.length + orphan.length = 0 then none
  else
    some (String.join (missing.map (fun k => "missing metadata: " ++ k ++ "\n"))
      ++ String.join (orphan.map (fun k => "orphan metadata: " ++ k ++ "\n")))

/-- C7 counterexample: a schema-declared field (`Validate = false`, as every
`@field` row is parsed) that no value ever references produces no error —
`checkKeys` flags only validated parameter names as orphans, so the
"schema declares fields never referenced" direction fails for fields. -/
theorem checkKeys_field_orphan_counterexample :
    checkKeys [] [⟨"foo", "string", false⟩] = none ∧
    (∃ p ∈ ([⟨"foo", "string", false⟩] : List Parameter),
      ([] : List String).contains p.name = false) := by
  constructor
  · rfl
  · exact ⟨⟨"foo", "string", false⟩, List.mem_singleton.mpr rfl, rfl⟩

/-- C7 (amended): `checkKeys` reports errors in both directions for the
keys it polices — it rejects when some real key is neither skipped nor
declared by a validated parameter (a value referencing undeclared schema),
and it rejects when some validated parameter name is neither present among
the real keys nor skipped (schema declaring a parameter never referenced).
Rows with `Validate = false` (the `@field` rows) are exempt from the orphan
direction: see the counterexample. -/
theorem checkKeys_both_directions (realKeys : List String)
    (meta : List Parameter) :
    (∀ rk, rk ∈ realKeys → isSkipped realKeys meta rk = false →
      (metaSet meta).contains rk = false → checkKeys realKeys meta ≠ none) ∧
    (∀ mk, mk ∈ metaSet meta → realKeys.contains mk = false →
      isSkipped realKeys meta mk = false → checkKeys realKeys meta ≠ none) := by
  constructor
  · intro rk hrk hskip hmeta
    have hmem : rk ∈ missingOf realKeys meta := by
      rw [missingOf]
      apply (sortStrs_perm _).mem_iff.mpr
      apply List.mem_filter.mpr
      refine ⟨List.mem_dedup.mpr hrk, ?_⟩
      rw [hskip, hmeta]
      rfl
    rw [checkKeys]
    rw [if_neg]
    · exact fun h => Option.noConfusion h
    · intro hlen
      have : missingOf realKeys meta = [] := by
        cases hm : missingOf realKeys meta with
        | nil => rfl
        | cons a l =>
          rw [hm] at hlen
          simp at hlen
      rw [this] at hmem
      cases hmem
  · intro mk hmk hreal hskip
    have hmem : mk ∈ orphanOf realKeys meta := by
      rw [orphanOf]
      apply (sortStrs_perm _).mem_iff.mpr
      apply List.mem_filter.mpr
      refine ⟨List.mem_dedup.mpr hmk, ?_⟩
      rw [hreal, hskip]
      rfl
    rw [checkKeys]
    rw [if_neg]
    · exact fun h => Option.noConfusion h
    · intro hlen
      have : orphanOf realKeys meta = [] := by
        cases hm : orphanOf realKeys meta with
        | nil => rfl
        | cons a l =>
          rw [hm] at hlen
          simp at hlen
      rw [this] at hmem
      cases hmem

theorem checkKeys_both_directions_witness :
    checkKeys ["a"] [⟨"b", "string", true⟩] ≠ none :=
  (checkKeys_both_directions ["a"] [⟨"b", "string", true⟩]).1 "a"
    (by decide) (by decide) (by decide)

end ReadmeTable

end CV
